import Mathlib

/-!
Verification of the roadmap-generator service (`src/main.py`).

The Python request handler `generate_roadmap` is shallowly embedded here:

* string primitives (`str.strip`, `str.replace`, `str.split('\n')`,
  `'\n'.join`, substring containment `in`, `str.lower`, slicing `[:300]`)
  are modelled as executable functions on `List Char` / `String`;
* the heterogeneous model response is a structure recording the observable
  behaviour of the dynamic attribute probes performed by the code
  (`hasattr(response, 'text')`, `response.text`, `response.candidates`,
  `candidate.content`, `part.text`);
* the two network collaborators (Gemini, Kroki) are oracles: each call
  either returns a value or raises an exception carrying a message;
* the handler itself is a total function producing the returned JSON
  object, modelled by the inductive `Result`.
-/

namespace Roadmap

/-! ### Python string primitives on `List Char` -/

/-- The whitespace characters stripped by Python's `str.strip()`
(ASCII fragment; the inputs of interest are ASCII). -/
def pyWs (c : Char) : Bool :=
  c = ' ' || c = '\t' || c = '\n' || c = '\r' || c = '\x0b' || c = '\x0c'

/-- Remove leading whitespace (Python `str.lstrip()`). -/
def lstripL (l : List Char) : List Char := l.dropWhile pyWs

/-- Remove trailing whitespace (Python `str.rstrip()`). -/
def rstripL (l : List Char) : List Char := (l.reverse.dropWhile pyWs).reverse

/-- Python `str.strip()`. -/
def pyStripL (l : List Char) : List Char := rstripL (lstripL l)

/-- Substring containment: Python `pat in s`. -/
def containsSubL (pat : List Char) : List Char → Bool
  | [] => pat.isEmpty
  | c :: t => pat.isPrefixOf (c :: t) || containsSubL pat t

/-- Fuel-driven worker for `pyReplaceL`; structural recursion on the fuel so
that the kernel can evaluate it. -/
def pyReplaceFuel (pat repl : List Char) : Nat → List Char → List Char
  | _, [] => []
  | 0, s => s
  | fuel + 1, c :: rest =>
    if pat.isPrefixOf (c :: rest) then
      repl ++ pyReplaceFuel pat repl fuel (List.drop (pat.length - 1) rest)
    else
      c :: pyReplaceFuel pat repl fuel rest

/-- Python `s.replace(pat, repl)`: replace every occurrence, scanning left to
right without overlap. -/
def pyReplaceL (s pat repl : List Char) : List Char :=
  pyReplaceFuel pat repl s.length s

/-- The backtick character (named to keep proofs readable). -/
def tick : Char := "`".data.headD 'x'

/-- Length of the run of backticks at the head of a string; the key measure
for reasoning about fence removal. -/
def tickRun (l : List Char) : Nat := (l.takeWhile (fun c => c == tick)).length

/-- Per-character substitution: the effect of Python `line.replace(c0, r)`
for a single-character pattern. -/
def substL (c0 : Char) (r : List Char) : List Char → List Char
  | [] => []
  | c :: t => (if c = c0 then r else [c]) ++ substL c0 r t

/-- The first character (if any) is not whitespace. -/
def noLeadWs (l : List Char) : Prop := pyWs (l.headD 'g') = false

/-- The last character (if any) is not whitespace. -/
def noTrailWs (l : List Char) : Prop := pyWs (l.getLastD 'g') = false

/-- Lines of a string: Python `s.split('\n')`. -/
def splitLinesL (l : List Char) : List (List Char) := List.splitOn '\n' l

/-- Python `'\n'.join(ls)`. -/
def joinLinesL (ls : List (List Char)) : List Char := List.intercalate ['\n'] ls

/-! ### The cleaning pipeline of `generate_roadmap` (src/main.py lines 91-119) -/

/-- The generic code-fence marker. -/
def fenceL : List Char := "```".data

/-- The mermaid-specific opening fence marker. -/
def mermaidFenceL : List Char := "```mermaid".data

/-- Lines 91-94: strip, remove every "```mermaid", remove every "```",
strip again. -/
def stripFencesL (l : List Char) : List Char :=
  pyStripL (pyReplaceL (pyReplaceL (pyStripL l) mermaidFenceL []) fenceL [])

/-- The scan condition of line 100: `lines[i].strip().startswith('graph')`. -/
def lineStartsGraph (l : List Char) : Bool :=
  "graph".data.isPrefixOf (pyStripL l)

/-- Lines 96-102: if the text does not start with "graph", keep from the
first line whose stripped content starts with "graph" (unchanged if none). -/
def findGraphStartL (l : List Char) : List Char :=
  if "graph".data.isPrefixOf l then l
  else
    match (splitLinesL l).findIdx? lineStartsGraph with
    | some i => joinLinesL ((splitLinesL l).drop i)
    | none => l

/-- Lines 109-113 for one line: if the line contains both '[' and ']',
replace every ':' by " -". -/
def fixLineL (l : List Char) : List Char :=
  if l.contains '[' && l.contains ']' then pyReplaceL l [':'] " -".data else l

/-- Lines 105-116: the per-line colon rewrite. -/
def fixColonsL (l : List Char) : List Char :=
  joinLinesL ((splitLinesL l).map fixLineL)

/-- Lines 91-116: the whole cleaning pipeline (before the validation gate). -/
def cleanCodeL (l : List Char) : List Char :=
  fixColonsL (findGraphStartL (stripFencesL l))

/-- Line 118: `'graph TD' in code or 'graph LR' in code`. -/
def validGraphL (l : List Char) : Bool :=
  containsSubL "graph TD".data l || containsSubL "graph LR".data l

/-! ### String-level wrappers -/

/-- Python `str.strip()` on `String`. -/
def pyStrip (s : String) : String := ⟨pyStripL s.data⟩

/-- Python `pat in s` on `String`. -/
def strContains (s pat : String) : Bool := containsSubL pat.data s.data

/-- Python `s.lower()` (ASCII fragment). -/
def pyLower (s : String) : String := ⟨s.data.map Char.toLower⟩

/-- The cleaning pipeline on `String`. -/
def cleanCode (s : String) : String := ⟨cleanCodeL s.data⟩

/-- The validation gate on `String`. -/
def validGraph (s : String) : Bool := validGraphL s.data

/-- The Diagram Sanitizer of the spec: clean, then validate; `none` models
the `Invalid` signal of line 119. -/
def sanitize (s : String) : Option String :=
  if validGraph (cleanCode s) then some (cleanCode s) else none

/-! ### The model response and the Response Extractor (lines 64-88) -/

/-- One element of `candidate.content.parts`; `text = none` models a part
with no (or a `None`) `text` attribute, both of which fail the check
`hasattr(part, 'text') and part.text`. -/
structure Part where
  text : Option String
deriving DecidableEq

/-- One element of `response.candidates`; `content = none` models a falsy
`candidate.content` or falsy `candidate.content.parts`. -/
structure Candidate where
  content : Option (List Part)
deriving DecidableEq

/-- Observable behaviour of the attribute probe `response.text`
(lines 68-69). `val none` models a present attribute whose value is `None`. -/
inductive TextAttr where
  /-- `hasattr(response, 'text')` is true and reading the attribute yields
  this value. -/
  | val (s : Option String)
  /-- probing raises `AttributeError`: `hasattr` is false, no exception
  escapes, so the `except` branch (strategy 2) is never entered. -/
  | absent
  /-- probing raises some other exception, which escapes `hasattr` and is
  caught by the `except` of line 71, entering strategy 2. -/
  | raising
deriving DecidableEq

/-- The model response as observed by the extraction code. -/
structure ModelResponse where
  textAttr : TextAttr
  /-- whether evaluating strategy 2 (lines 74-83) raises; the `except` of
  line 84 then leaves `mermaid_code` unset. -/
  candidatesRaise : Bool
  /-- `response.candidates`; `none` models a falsy value. -/
  candidates : Option (List Candidate)
deriving DecidableEq

/-- The texts collected by the loop of lines 77-80. -/
def collectTexts (ps : List Part) : List String :=
  ps.filterMap fun p =>
    match p.text with
    | some s => if s = "" then none else some s
    | none => none

/-- Strategy 2 (lines 73-85): first candidate, its content parts, the
non-empty part texts joined with no separator. -/
def extractParts (resp : ModelResponse) : Option String :=
  if resp.candidatesRaise then none
  else
    match resp.candidates with
    | none => none
    | some cands =>
      match cands with
      | [] => none
      | cand :: _ =>
        match cand.content with
        | none => none
        | some ps =>
          if collectTexts ps = [] then none
          else some (String.join (collectTexts ps))

/-- Lines 64-88: the Response Extractor. Strategy 2 runs only inside the
`except` of strategy 1; afterwards line 87 treats a falsy `mermaid_code`
as failure (`none` = the `Could not generate content` outcome). -/
def extract (resp : ModelResponse) : Option String :=
  let mc : Option String :=
    match resp.textAttr with
    | .val s => s
    | .absent => none
    | .raising => extractParts resp
  match mc with
  | some s => if s = "" then none else some s
  | none => none

/-! ### The Roadmap Orchestrator (lines 31-168) -/

/-- The request body (lines 25-29). -/
structure RoadmapRequest where
  skill : String
  language : String := "Any"
  speed : String
  custom_prompt : String := ""
deriving DecidableEq

/-- Lines 33-53: the prompt built from the request. The `language` field is
not interpolated anywhere. -/
def buildPrompt (req : RoadmapRequest) : String :=
  let custom_context := if req.custom_prompt ≠ "" then " " ++ req.custom_prompt else ""
  "Create a Mermaid flowchart for learning " ++ req.skill ++ ".\nPace: " ++ req.speed
    ++ "." ++ custom_context
    ++ "\n\nIMPORTANT RULES:\n1. Start with: graph TD\n2. Use simple node IDs: A, B, C, etc\n3. Put labels in square brackets: A[Label Text]\n4. Avoid special characters in labels (no colons, quotes)\n5. Connect nodes: A --> B\n6. All nodes must be connected to the graph\n7. No explanations, just the graph code\n\nExample:\ngraph TD\n    A[Start] --> B[Learn Basics]\n    B --> C[Practice]\n    C --> D[Build Project]\n\nGenerate the roadmap now:"

/-- Outcome of the Gemini call (line 59): a response, or an exception. -/
inductive ModelCall where
  | ok (resp : ModelResponse)
  | raising (msg : String)
deriving DecidableEq

/-- The Kroki HTTP response (lines 126-137). -/
structure KrokiResponse where
  status_code : Nat
  text : String
deriving DecidableEq

/-- Outcome of the Kroki call: a response, or an exception (e.g. timeout). -/
inductive KrokiCall where
  | ok (resp : KrokiResponse)
  | raising (msg : String)
deriving DecidableEq

/-- The JSON object returned by the handler. -/
inductive Result where
  /-- `{"mermaid": ..., "svg": ..., "success": True}` (lines 141-145) -/
  | success (mermaid svg : String)
  /-- `{"error": ...}` (lines 88, 168) -/
  | errorOnly (error : String)
  /-- `{"error": ..., "raw": ...}` (line 119) -/
  | errorRaw (error raw : String)
  /-- `{"error": ..., "mermaid": ..., "details": ...}` (lines 152-162) -/
  | errorDetails (error mermaid details : String)
deriving DecidableEq

/-- The syntax-specific error message of line 153. -/
def syntaxErrorMsg : String :=
  "The generated diagram has syntax errors. Try a simpler request."

/-- Lines 31-168: the request handler. The two collaborator calls are passed
in as oracles; every other step is the code's own logic. -/
def generate_roadmap (req : RoadmapRequest) (model : ModelCall)
    (kroki : KrokiCall) : Result :=
  match model with
  | .raising msg => .errorOnly ("Server error: " ++ msg)
  | .ok resp =>
    match extract resp with
    | none => .errorOnly "Could not generate content"
    | some raw =>
      let code := cleanCode raw
      if validGraph code then
        match kroki with
        | .raising msg => .errorOnly ("Server error: " ++ msg)
        | .ok kr =>
          if kr.status_code = 200 then
            .success code kr.text
          else if strContains (pyLower kr.text) "syntax" then
            .errorDetails syntaxErrorMsg code (kr.text.take 300)
          else
            .errorDetails "Diagram rendering failed" code (kr.text.take 300)
      else .errorRaw "No valid graph found" (code.take 300)

/-- The text handed to the rendering collaborator, when the execution
reaches the call of line 126 at all. -/
def rendererInput (model : ModelCall) : Option String :=
  match model with
  | .raising _ => none
  | .ok resp =>
    match extract resp with
    | none => none
    | some raw => sanitize raw

/-! ### Lemmas about `pyReplaceL` -/

theorem pyReplaceFuel_congr (pat repl : List Char) :
    ∀ f₁ f₂ s, s.length ≤ f₁ → s.length ≤ f₂ →
      pyReplaceFuel pat repl f₁ s = pyReplaceFuel pat repl f₂ s := by
  intro f₁
  induction f₁ with
  | zero =>
    intro f₂ s h₁ _
    have hs : s = [] := List.length_eq_zero.mp (Nat.le_zero.mp h₁)
    subst hs
    cases f₂ <;> rfl
  | succ f ih =>
    intro f₂ s h₁ h₂
    cases s with
    | nil => cases f₂ <;> rfl
    | cons c rest =>
      cases f₂ with
      | zero => simp at h₂
      | succ f₂ =>
        simp only [pyReplaceFuel]
        have hr : rest.length ≤ f := by simpa using h₁
        have hr₂ : rest.length ≤ f₂ := by simpa using h₂
        by_cases hp : pat.isPrefixOf (c :: rest) = true
        · rw [if_pos hp, if_pos hp]
          have hd : (List.drop (pat.length - 1) rest).length ≤ rest.length := by
            simp [List.length_drop]
          rw [ih f₂ _ (le_trans hd hr) (le_trans hd hr₂)]
        · rw [if_neg hp, if_neg hp, ih f₂ _ hr hr₂]

theorem pyReplaceL_nil (pat repl : List Char) : pyReplaceL [] pat repl = [] := rfl

theorem pyReplaceL_cons (pat repl : List Char) (c : Char) (rest : List Char) :
    pyReplaceL (c :: rest) pat repl =
      if pat.isPrefixOf (c :: rest) then
        repl ++ pyReplaceL (List.drop (pat.length - 1) rest) pat repl
      else c :: pyReplaceL rest pat repl := by
  show pyReplaceFuel pat repl (c :: rest).length (c :: rest) = _
  simp only [List.length_cons, pyReplaceFuel]
  by_cases hp : pat.isPrefixOf (c :: rest) = true
  · rw [if_pos hp, if_pos hp]
    have hd : (List.drop (pat.length - 1) rest).length ≤ rest.length := by
      simp [List.length_drop]
    rw [pyReplaceFuel_congr pat repl rest.length
      (List.drop (pat.length - 1) rest).length _ hd le_rfl]
    rfl
  · rw [if_neg hp, if_neg hp]
    rfl

theorem pyReplaceL_id_of_no_occ (pat repl : List Char) :
    ∀ s, ¬ pat <:+: s → pyReplaceL s pat repl = s := by
  intro s
  induction s with
  | nil => intro _; rfl
  | cons c t ih =>
    intro h
    rw [pyReplaceL_cons]
    have hp : ¬ pat.isPrefixOf (c :: t) = true := by
      intro hp
      exact h (List.IsPrefix.isInfix (List.isPrefixOf_iff_prefix.mp hp))
    rw [if_neg hp, ih (fun hi => h (List.infix_cons_iff.mpr (Or.inr hi)))]

/-! ### Lemmas about substring containment -/

theorem containsSubL_iff (pat s : List Char) :
    containsSubL pat s = true ↔ pat <:+: s := by
  induction s with
  | nil =>
    simp only [containsSubL, List.isEmpty_iff, List.infix_nil]
  | cons c t ih =>
    simp only [containsSubL, Bool.or_eq_true, ih, List.isPrefixOf_iff_prefix]
    exact (List.infix_cons_iff).symm

/-! ### Backtick-run lemmas: removing every "```" leaves no "```" -/

theorem fenceL_eq : fenceL = [tick, tick, tick] := by decide

theorem tickRun_cons (c : Char) (l : List Char) :
    tickRun (c :: l) = if c == tick then tickRun l + 1 else 0 := by
  by_cases h : c == tick
  · simp [tickRun, List.takeWhile_cons, h]
  · simp [tickRun, List.takeWhile_cons, h]

theorem two_le_tickRun_iff (l : List Char) : [tick, tick] <+: l ↔ 2 ≤ tickRun l := by
  cases l with
  | nil =>
    constructor
    · intro h
      have := h.length_le
      simp at this
    · intro h
      simp [tickRun] at h
  | cons c t =>
    cases t with
    | nil =>
      constructor
      · intro h
        have := h.length_le
        simp at this
      · intro h
        rw [tickRun_cons] at h
        by_cases hc : c == tick
        · rw [if_pos hc] at h
          simp [tickRun] at h
        · rw [if_neg hc] at h
          omega
    | cons d u =>
      constructor
      · intro h
        rcases List.cons_prefix_cons.mp h with ⟨h1, h2⟩
        rcases List.cons_prefix_cons.mp h2 with ⟨h3, _⟩
        rw [tickRun_cons, tickRun_cons, ← h1, ← h3]
        simp
      · intro h
        rw [tickRun_cons] at h
        by_cases hc : c == tick
        · rw [if_pos hc] at h
          rw [tickRun_cons] at h
          by_cases hd : d == tick
          · exact List.cons_prefix_cons.mpr ⟨(beq_iff_eq.mp hc).symm,
              List.cons_prefix_cons.mpr ⟨(beq_iff_eq.mp hd).symm, List.nil_prefix⟩⟩
          · rw [if_neg hd] at h
            omega
        · rw [if_neg hc] at h
          omega

theorem tickRun_replace_le (s : List Char) :
    tickRun (pyReplaceL s fenceL []) ≤ tickRun s := by
  cases s with
  | nil => exact le_rfl
  | cons c rest =>
    rw [pyReplaceL_cons]
    by_cases hp : fenceL.isPrefixOf (c :: rest) = true
    · rw [if_pos hp]
      obtain ⟨u, hu⟩ := List.isPrefixOf_iff_prefix.mp hp
      rw [fenceL_eq] at hu
      simp only [List.cons_append, List.nil_append] at hu
      injection hu with h1 h2
      subst h1
      subst h2
      have hdrop : List.drop (fenceL.length - 1) (tick :: tick :: u) = u := by
        simp [fenceL_eq]
      rw [hdrop, List.nil_append]
      have ih := tickRun_replace_le u
      have : tickRun (tick :: tick :: tick :: u) = tickRun u + 3 := by
        rw [tickRun_cons, tickRun_cons, tickRun_cons]
        simp
      omega
    · rw [if_neg hp]
      have ih := tickRun_replace_le rest
      rw [tickRun_cons, tickRun_cons]
      by_cases hc : c == tick
      · rw [if_pos hc, if_pos hc]
        omega
      · rw [if_neg hc, if_neg hc]
  termination_by s.length
  decreasing_by
  all_goals ((try subst h2); simp_all; try omega)

theorem no_fence_in_replace (s : List Char) :
    ¬ fenceL <:+: pyReplaceL s fenceL [] := by
  cases s with
  | nil =>
    intro h
    rw [pyReplaceL_nil, List.infix_nil] at h
    exact (by decide : fenceL ≠ []) h
  | cons c rest =>
    rw [pyReplaceL_cons]
    by_cases hp : fenceL.isPrefixOf (c :: rest) = true
    · rw [if_pos hp]
      obtain ⟨u, hu⟩ := List.isPrefixOf_iff_prefix.mp hp
      rw [fenceL_eq] at hu
      simp only [List.cons_append, List.nil_append] at hu
      injection hu with h1 h2
      subst h2
      have hdrop : List.drop (fenceL.length - 1) (tick :: tick :: u) = u := by
        simp [fenceL_eq]
      rw [hdrop, List.nil_append]
      exact no_fence_in_replace u
    · rw [if_neg hp]
      intro h
      rcases List.infix_cons_iff.mp h with hpre | hinf
      · rw [fenceL_eq] at hpre
        rcases List.cons_prefix_cons.mp hpre with ⟨h1, hpre2⟩
        have h2 : 2 ≤ tickRun (pyReplaceL rest fenceL []) :=
          (two_le_tickRun_iff _).mp hpre2
        have h3 := tickRun_replace_le rest
        have h4 : [tick, tick] <+: rest := (two_le_tickRun_iff rest).mpr (by omega)
        apply hp
        apply List.isPrefixOf_iff_prefix.mpr
        rw [fenceL_eq, ← h1]
        exact List.cons_prefix_cons.mpr ⟨rfl, h4⟩
      · exact no_fence_in_replace rest hinf
  termination_by s.length
  decreasing_by
  all_goals ((try subst h2); simp_all; try omega)

/-! ### Lemmas about stripping -/

theorem lstripL_suffix (l : List Char) : lstripL l <:+ l :=
  List.dropWhile_suffix pyWs

theorem rstripL_prefixOf (l : List Char) : rstripL l <+: l := by
  apply List.reverse_suffix.mp
  simp only [rstripL, List.reverse_reverse]
  exact List.dropWhile_suffix pyWs

theorem pyStripL_sub (l : List Char) : pyStripL l <:+: l :=
  List.infix_iff_prefix_suffix.mpr ⟨lstripL l, rstripL_prefixOf _, lstripL_suffix _⟩

theorem headD_reverse (l : List Char) (d : Char) : l.reverse.headD d = l.getLastD d := by
  simp [List.getLastD_eq_getLast?, List.headD_eq_head?, List.head?_reverse]

theorem getLastD_reverse (l : List Char) (d : Char) : l.reverse.getLastD d = l.headD d := by
  simp [List.getLastD_eq_getLast?, List.headD_eq_head?, List.getLast?_reverse]

theorem dropWhile_headD_not (x : List Char) :
    pyWs ((List.dropWhile pyWs x).headD 'g') = false := by
  induction x with
  | nil => decide
  | cons c t ih =>
    rw [List.dropWhile_cons]
    by_cases hc : pyWs c = true
    · rw [if_pos hc]
      exact ih
    · rw [if_neg hc]
      simp only [List.headD_cons]
      exact Bool.eq_false_iff.mpr hc

theorem dropWhile_eq_self_of_headD (x : List Char)
    (h : pyWs (x.headD 'g') = false) : List.dropWhile pyWs x = x := by
  cases x with
  | nil => rfl
  | cons c t =>
    simp only [List.headD_cons] at h
    simp [List.dropWhile_cons, h]

theorem noLeadWs_lstripL (l : List Char) : noLeadWs (lstripL l) :=
  dropWhile_headD_not l

theorem noTrailWs_rstripL (l : List Char) : noTrailWs (rstripL l) := by
  show pyWs ((rstripL l).getLastD 'g') = false
  rw [rstripL, getLastD_reverse]
  exact dropWhile_headD_not l.reverse

theorem lstripL_eq_self (l : List Char) (h : noLeadWs l) : lstripL l = l :=
  dropWhile_eq_self_of_headD l h

theorem rstripL_eq_self (l : List Char) (h : noTrailWs l) : rstripL l = l := by
  rw [rstripL, dropWhile_eq_self_of_headD l.reverse (by rw [headD_reverse]; exact h),
    List.reverse_reverse]

theorem noLeadWs_rstripL (l : List Char) (h : noLeadWs l) : noLeadWs (rstripL l) := by
  cases l with
  | nil =>
    simp only [noLeadWs, rstripL]
    decide
  | cons c t =>
    have hpre := rstripL_prefixOf (c :: t)
    cases hr : rstripL (c :: t) with
    | nil =>
      simp only [noLeadWs]
      decide
    | cons d t2 =>
      rw [hr] at hpre
      rcases List.cons_prefix_cons.mp hpre with ⟨h1, _⟩
      show pyWs ((d :: t2).headD 'g') = false
      simp only [List.headD_cons, h1]
      simpa [noLeadWs] using h

theorem noLeadWs_pyStripL (l : List Char) : noLeadWs (pyStripL l) :=
  noLeadWs_rstripL _ (noLeadWs_lstripL l)

theorem noTrailWs_pyStripL (l : List Char) : noTrailWs (pyStripL l) :=
  noTrailWs_rstripL _

theorem pyStripL_eq_self (l : List Char) (h1 : noLeadWs l) (h2 : noTrailWs l) :
    pyStripL l = l := by
  rw [pyStripL, lstripL_eq_self l h1, rstripL_eq_self l h2]

theorem pyStripL_idem (l : List Char) : pyStripL (pyStripL l) = pyStripL l :=
  pyStripL_eq_self _ (noLeadWs_pyStripL l) (noTrailWs_pyStripL l)

/-! ### Lemmas about lines: splitting, joining, infix transfer -/

theorem joinLinesL_nil : joinLinesL [] = [] := rfl

theorem joinLinesL_single (a : List Char) : joinLinesL [a] = a := by
  simp [joinLinesL, List.intercalate]

theorem joinLinesL_cons₂ (a b : List Char) (t : List (List Char)) :
    joinLinesL (a :: b :: t) = a ++ '\n' :: joinLinesL (b :: t) := by
  simp [joinLinesL, List.intercalate, List.intersperse_cons₂]

theorem joinLinesL_splitLinesL (l : List Char) : joinLinesL (splitLinesL l) = l :=
  List.intercalate_splitOn l '\n'

theorem splitLinesL_joinLinesL (ls : List (List Char)) (h : ∀ l ∈ ls, '\n' ∉ l)
    (hne : ls ≠ []) : splitLinesL (joinLinesL ls) = ls :=
  List.splitOn_intercalate ls '\n' h hne

theorem splitLinesL_ne_nil (l : List Char) : splitLinesL l ≠ [] :=
  List.splitOnP_ne_nil _ l

theorem no_newline_mem_splitLinesL :
    ∀ l l2 : List Char, l2 ∈ splitLinesL l → '\n' ∉ l2 := by
  intro l
  induction l with
  | nil =>
    intro l2 h
    simp only [splitLinesL, List.splitOn_nil, List.mem_singleton] at h
    subst h
    simp
  | cons c t ih =>
    intro l2 h
    show ¬ _
    simp only [splitLinesL, List.splitOn] at h ih
    rw [List.splitOnP_cons] at h
    by_cases hc : (c == '\n') = true
    · rw [if_pos hc] at h
      rcases List.mem_cons.mp h with rfl | h2
      · simp
      · exact ih l2 h2
    · rw [if_neg hc] at h
      cases hsplit : List.splitOnP (fun a => a == '\n') t with
      | nil => exact absurd hsplit (List.splitOnP_ne_nil _ t)
      | cons hd tl =>
        rw [hsplit, List.modifyHead_cons] at h
        rcases List.mem_cons.mp h with rfl | h2
        · intro hmem
          rcases List.mem_cons.mp hmem with rfl | h3
          · simp at hc
          · exact ih hd (by rw [hsplit]; exact List.mem_cons_self hd tl) h3
        · exact ih l2 (by rw [hsplit]; exact List.mem_cons_of_mem hd h2)

theorem joinLinesL_tail_suffix (a : List Char) (t : List (List Char)) :
    joinLinesL t <:+ joinLinesL (a :: t) := by
  cases t with
  | nil => simp [joinLinesL_nil]
  | cons b u =>
    rw [joinLinesL_cons₂]
    have : a ++ '\n' :: joinLinesL (b :: u) = (a ++ ['\n']) ++ joinLinesL (b :: u) := by
      simp
    rw [this]
    exact List.suffix_append (a ++ ['\n']) _

theorem joinLinesL_drop_suffix : ∀ (i : Nat) (ls : List (List Char)),
    joinLinesL (List.drop i ls) <:+ joinLinesL ls := by
  intro i
  induction i with
  | zero => intro ls; simp
  | succ i ih =>
    intro ls
    cases ls with
    | nil => simp
    | cons a t =>
      rw [List.drop_succ_cons]
      exact (ih t).trans (joinLinesL_tail_suffix a t)

theorem prefix_of_append_cons_not_mem {c : Char} :
    ∀ {pat a b : List Char}, c ∉ pat → pat <+: a ++ c :: b → pat <+: a := by
  intro pat
  induction pat with
  | nil => intro a b _ _; exact List.nil_prefix
  | cons p pt ih =>
    intro a b hc h
    cases a with
    | nil =>
      rcases List.cons_prefix_cons.mp h with ⟨h1, _⟩
      exact absurd (h1 ▸ List.mem_cons_self p pt) hc
    | cons x a2 =>
      rcases List.cons_prefix_cons.mp h with ⟨h1, h2⟩
      exact h1 ▸ List.cons_prefix_cons.mpr
        ⟨rfl, ih (fun hm => hc (List.mem_cons_of_mem p hm)) h2⟩

theorem infix_append_cons_split {c : Char} {pat : List Char} (hc : c ∉ pat) :
    ∀ {a b : List Char}, pat <:+: a ++ c :: b → pat <:+: a ∨ pat <:+: b := by
  intro a
  induction a with
  | nil =>
    intro b h
    simp only [List.nil_append] at h
    rcases List.infix_cons_iff.mp h with hpre | hinf
    · cases pat with
      | nil => exact Or.inl (List.infix_refl [])
      | cons p pt =>
        rcases List.cons_prefix_cons.mp hpre with ⟨h1, _⟩
        exact absurd (h1 ▸ List.mem_cons_self p pt) hc
    · exact Or.inr hinf
  | cons x a2 ih =>
    intro b h
    rcases List.infix_cons_iff.mp h with hpre | hinf
    · have : pat <+: (x :: a2) ++ c :: b := by simpa using hpre
      exact Or.inl (List.IsPrefix.isInfix (prefix_of_append_cons_not_mem hc this))
    · rcases ih hinf with h2 | h2
      · exact Or.inl (List.infix_cons_iff.mpr (Or.inr h2))
      · exact Or.inr h2

theorem mem_infix_joinLinesL {l2 : List Char} :
    ∀ {ls : List (List Char)}, l2 ∈ ls → l2 <:+: joinLinesL ls := by
  intro ls
  induction ls with
  | nil => intro h; simp at h
  | cons a t ih =>
    intro h
    rcases List.mem_cons.mp h with rfl | h2
    · cases t with
      | nil => rw [joinLinesL_single]
      | cons b u =>
        rw [joinLinesL_cons₂]
        exact List.IsPrefix.isInfix (List.prefix_append l2 _)
    · exact (ih h2).trans (List.IsSuffix.isInfix (joinLinesL_tail_suffix a t))

theorem infix_joinLinesL_iff {pat : List Char} (hne : pat ≠ []) (hn : '\n' ∉ pat) :
    ∀ ls : List (List Char), (pat <:+: joinLinesL ls ↔ ∃ l2 ∈ ls, pat <:+: l2) := by
  intro ls
  induction ls with
  | nil =>
    rw [joinLinesL_nil]
    simp only [List.infix_nil]
    constructor
    · intro h; exact absurd h hne
    · intro h; simp at h
  | cons a t ih =>
    constructor
    · intro h
      cases t with
      | nil =>
        rw [joinLinesL_single] at h
        exact ⟨a, List.mem_singleton_self a, h⟩
      | cons b u =>
        rw [joinLinesL_cons₂] at h
        rcases infix_append_cons_split hn h with h2 | h2
        · exact ⟨a, List.mem_cons_self a _, h2⟩
        · rcases (ih).mp h2 with ⟨l2, hmem, hinf⟩
          exact ⟨l2, List.mem_cons_of_mem a hmem, hinf⟩
    · rintro ⟨l2, hmem, hinf⟩
      exact hinf.trans (mem_infix_joinLinesL hmem)

/-! ### Lemmas about single-character replacement (`line.replace(':', ' -')`) -/

theorem pyReplaceL_singleton (c0 : Char) (r : List Char) :
    ∀ l, pyReplaceL l [c0] r = substL c0 r l := by
  intro l
  induction l with
  | nil => rfl
  | cons c t ih =>
    rw [pyReplaceL_cons]
    by_cases hc : c = c0
    · subst hc
      have hp : [c].isPrefixOf (c :: t) = true := by
        simp [List.isPrefixOf]
      rw [if_pos hp]
      show r ++ pyReplaceL (List.drop 0 t) [c] r = (if c = c then r else [c]) ++ substL c r t
      rw [List.drop_zero, if_pos rfl, ih]
    · have hp : ¬ [c0].isPrefixOf (c :: t) = true := by
        rw [List.isPrefixOf_iff_prefix]
        intro hpre
        exact hc (List.cons_prefix_cons.mp hpre).1.symm
      rw [if_neg hp]
      show c :: pyReplaceL t [c0] r = (if c = c0 then r else [c]) ++ substL c0 r t
      rw [if_neg hc, ih]
      rfl

theorem substL_eq_nil_iff (c0 : Char) (r : List Char) (hr : r ≠ []) :
    ∀ l, substL c0 r l = [] ↔ l = [] := by
  intro l
  cases l with
  | nil => simp [substL]
  | cons c t =>
    simp only [substL, List.append_eq_nil]
    constructor
    · rintro ⟨h1, _⟩
      by_cases hc : c = c0
      · rw [if_pos hc] at h1; exact absurd h1 hr
      · rw [if_neg hc] at h1; exact absurd h1 (by simp)
    · intro h; exact absurd h (by simp)

theorem not_mem_substL (c0 : Char) (r : List Char) (hr : c0 ∉ r) :
    ∀ l, c0 ∉ substL c0 r l := by
  intro l
  induction l with
  | nil => simp [substL]
  | cons c t ih =>
    simp only [substL, List.mem_append]
    rintro (h1 | h2)
    · by_cases hc : c = c0
      · rw [if_pos hc] at h1; exact hr h1
      · rw [if_neg hc] at h1
        simp only [List.mem_singleton] at h1
        exact hc (h1 ▸ rfl)
    · exact ih h2

theorem substL_id_of_not_mem (c0 : Char) (r : List Char) :
    ∀ l, c0 ∉ l → substL c0 r l = l := by
  intro l
  induction l with
  | nil => intro _; rfl
  | cons c t ih =>
    intro h
    have hc : ¬ c = c0 := fun hc => h (hc ▸ List.mem_cons_self c t)
    show (if c = c0 then r else [c]) ++ substL c0 r t = c :: t
    rw [if_neg hc, List.singleton_append, ih (fun hm => h (List.mem_cons_of_mem c hm))]

theorem mem_substL_iff (c0 : Char) (r : List Char) (d : Char) (hd : d ≠ c0)
    (hdr : d ∉ r) : ∀ l, (d ∈ substL c0 r l ↔ d ∈ l) := by
  intro l
  induction l with
  | nil => simp [substL]
  | cons c t ih =>
    show d ∈ (if c = c0 then r else [c]) ++ substL c0 r t ↔ d ∈ c :: t
    rw [List.mem_append, ih, List.mem_cons]
    by_cases hc : c = c0
    · rw [if_pos hc]
      constructor
      · rintro (h1 | h2)
        · exact absurd h1 hdr
        · exact Or.inr h2
      · rintro (rfl | h2)
        · exact absurd hc hd
        · exact Or.inr h2
    · rw [if_neg hc]
      rw [List.mem_singleton]

theorem tick_ne_colon : (':' == tick) = false := by decide

theorem tickRun_substL :
    ∀ l, tickRun (substL ':' " -".data l) = tickRun l := by
  intro l
  induction l with
  | nil => rfl
  | cons c t ih =>
    by_cases hc : c = ':'
    · subst hc
      show tickRun (" -".data ++ substL ':' " -".data t) = tickRun (':' :: t)
      rw [tickRun_cons, tick_ne_colon, if_neg (by simp)]
      show tickRun (' ' :: '-' :: substL ':' " -".data t) = 0
      rw [tickRun_cons, if_neg (by decide)]
    · show tickRun ((if c = ':' then " -".data else [c]) ++ substL ':' " -".data t)
        = tickRun (c :: t)
      rw [if_neg hc, List.singleton_append, tickRun_cons, tickRun_cons, ih]

theorem no_fence_substL (l : List Char) (h : ¬ fenceL <:+: l) :
    ¬ fenceL <:+: substL ':' " -".data l := by
  induction l with
  | nil =>
    intro hf
    rw [show substL ':' " -".data [] = [] from rfl, List.infix_nil] at hf
    exact (by decide : fenceL ≠ []) hf
  | cons c t ih =>
    have ht : ¬ fenceL <:+: t := fun hi => h (List.infix_cons_iff.mpr (Or.inr hi))
    have ihs := ih ht
    by_cases hc : c = ':'
    · subst hc
      show ¬ fenceL <:+: " -".data ++ substL ':' " -".data t
      intro hf
      rw [show (" -".data ++ substL ':' " -".data t)
          = ' ' :: '-' :: substL ':' " -".data t from rfl] at hf
      rcases List.infix_cons_iff.mp hf with hpre | hf2
      · rw [fenceL_eq] at hpre
        exact absurd (List.cons_prefix_cons.mp hpre).1 (by decide)
      · rcases List.infix_cons_iff.mp hf2 with hpre | hf3
        · rw [fenceL_eq] at hpre
          exact absurd (List.cons_prefix_cons.mp hpre).1 (by decide)
        · exact ihs hf3
    · show ¬ fenceL <:+: (if c = ':' then " -".data else [c]) ++ substL ':' " -".data t
      rw [if_neg hc, List.singleton_append]
      intro hf
      rcases List.infix_cons_iff.mp hf with hpre | hf2
      · rw [fenceL_eq] at hpre
        rcases List.cons_prefix_cons.mp hpre with ⟨h1, hpre2⟩
        have h2 : 2 ≤ tickRun (substL ':' " -".data t) := (two_le_tickRun_iff _).mp hpre2
        rw [tickRun_substL] at h2
        have h4 : [tick, tick] <+: t := (two_le_tickRun_iff t).mpr h2
        apply h
        apply List.IsPrefix.isInfix
        rw [fenceL_eq, ← h1]
        exact List.cons_prefix_cons.mpr ⟨rfl, h4⟩
      · exact ihs hf2

theorem prefix_substL_iff :
    ∀ (l pat : List Char), (∀ d ∈ pat, d ≠ ':' ∧ d ∉ " -".data) →
      (pat <+: substL ':' " -".data l ↔ pat <+: l) := by
  intro l
  induction l with
  | nil =>
    intro pat _
    cases pat with
    | nil => simp
    | cons p pt => simp [substL]
  | cons c t ih =>
    intro pat hp
    cases pat with
    | nil => simp
    | cons p pt =>
      have hpcol : p ≠ ':' := (hp p (List.mem_cons_self p pt)).1
      have hpsp : p ∉ " -".data := (hp p (List.mem_cons_self p pt)).2
      by_cases hc : c = ':'
      · subst hc
        show p :: pt <+: ' ' :: '-' :: substL ':' " -".data t ↔ _
        constructor
        · intro hpre
          exact absurd (List.cons_prefix_cons.mp hpre).1
            (by intro he; exact hpsp (he ▸ (by decide : (' ' : Char) ∈ " -".data)))
        · intro hpre
          exact absurd (List.cons_prefix_cons.mp hpre).1 (by intro he; exact hpcol he)
      · show p :: pt <+: (if c = ':' then " -".data else [c]) ++ substL ':' " -".data t ↔ _
        rw [if_neg hc, List.singleton_append, List.cons_prefix_cons, List.cons_prefix_cons,
          ih pt (fun d hd => hp d (List.mem_cons_of_mem p hd))]

/-! ### Append lemmas for stripping -/

theorem rstripL_append_not_ws (x : List Char) (c : Char) (d : List Char)
    (hc : pyWs c = false) : rstripL (x ++ c :: d) = x ++ c :: rstripL d := by
  have h1 : (x ++ c :: d).reverse = (d.reverse ++ [c]) ++ x.reverse := by
    simp
  rw [rstripL, h1, List.dropWhile_append]
  by_cases he : (List.dropWhile pyWs (d.reverse ++ [c])).isEmpty = true
  · exfalso
    rw [List.dropWhile_append] at he
    by_cases he2 : (List.dropWhile pyWs d.reverse).isEmpty = true
    · rw [if_pos he2] at he
      simp [List.dropWhile_cons, hc] at he
    · rw [if_neg he2] at he
      simp at he
  · rw [if_neg he, List.dropWhile_append]
    by_cases he2 : (List.dropWhile pyWs d.reverse).isEmpty = true
    · rw [if_pos he2]
      rw [List.isEmpty_iff] at he2
      simp [List.dropWhile_cons, hc, rstripL, he2]
    · rw [if_neg he2]
      simp [rstripL]

theorem lstripL_append_ex (a : List Char) (c : Char) (d : List Char)
    (hc : pyWs c = false) : ∃ a2, lstripL (a ++ c :: d) = a2 ++ c :: d := by
  rw [lstripL, List.dropWhile_append]
  by_cases he : (List.dropWhile pyWs a).isEmpty = true
  · rw [if_pos he]
    exact ⟨[], by simp [List.dropWhile_cons, hc]⟩
  · rw [if_neg he]
    exact ⟨List.dropWhile pyWs a, rfl⟩

theorem infix_pyStripL_of (pat l : List Char)
    (hhead : pyWs (pat.headD 'g') = false) (hlast : pyWs (pat.getLastD 'g') = false)
    (h : pat <:+: l) : pat <:+: pyStripL l := by
  cases hpat : pat with
  | nil => exact List.nil_infix
  | cons p pt =>
    subst hpat
    rcases h with ⟨s, t, hst⟩
    have h2 : s ++ (p :: pt) ++ t = s ++ p :: (pt ++ t) := by simp
    rw [h2] at hst
    simp only [List.headD_cons] at hhead
    obtain ⟨a2, ha2⟩ := lstripL_append_ex s p (pt ++ t) hhead
    rcases List.eq_nil_or_concat (p :: pt) with hnil | ⟨pin, e, hpe⟩
    · simp at hnil
    · rw [List.concat_eq_append] at hpe
      have hle : pyWs e = false := by
        rw [hpe, List.getLastD_concat] at hlast
        exact hlast
      have h3 : a2 ++ p :: (pt ++ t) = (a2 ++ pin) ++ e :: t := by
        have : p :: (pt ++ t) = (p :: pt) ++ t := by simp
        rw [this, hpe]
        simp
      refine ⟨a2, rstripL t, ?_⟩
      rw [pyStripL, ← hst, ha2, h3, rstripL_append_not_ws _ e t hle, hpe]
      simp

/-! ### The no-fence invariant of the cleaning pipeline -/

theorem not_infix_mono {p a b : List Char} (hab : a <:+: b) (h : ¬ p <:+: b) :
    ¬ p <:+: a :=
  fun hp => h (hp.trans hab)

theorem no_fence_stripFencesL (l : List Char) : ¬ fenceL <:+: stripFencesL l :=
  not_infix_mono (pyStripL_sub _) (no_fence_in_replace _)

theorem no_fence_fixLineL (l : List Char) (h : ¬ fenceL <:+: l) :
    ¬ fenceL <:+: fixLineL l := by
  rw [fixLineL]
  by_cases hb : (l.contains '[' && l.contains ']') = true
  · rw [if_pos hb, pyReplaceL_singleton]
    exact no_fence_substL l h
  · rw [if_neg hb]
    exact h

theorem newline_not_mem_fixLineL (l : List Char) (h : '\n' ∉ l) :
    '\n' ∉ fixLineL l := by
  rw [fixLineL]
  by_cases hb : (l.contains '[' && l.contains ']') = true
  · rw [if_pos hb, pyReplaceL_singleton]
    rw [mem_substL_iff ':' " -".data '\n' (by decide) (by decide) l]
    exact h
  · rw [if_neg hb]
    exact h

theorem no_fence_findGraphStartL (l : List Char) (h : ¬ fenceL <:+: l) :
    ¬ fenceL <:+: findGraphStartL l := by
  rw [findGraphStartL]
  by_cases hg : "graph".data.isPrefixOf l = true
  · rw [if_pos hg]; exact h
  · rw [if_neg hg]
    cases hf : (splitLinesL l).findIdx? lineStartsGraph with
    | none => exact h
    | some i =>
      have hsuf : joinLinesL ((splitLinesL l).drop i) <:+ l := by
        have := joinLinesL_drop_suffix i (splitLinesL l)
        rw [joinLinesL_splitLinesL] at this
        exact this
      exact not_infix_mono (List.IsSuffix.isInfix hsuf) h

theorem no_fence_fixColonsL (l : List Char) (h : ¬ fenceL <:+: l) :
    ¬ fenceL <:+: fixColonsL l := by
  rw [fixColonsL]
  intro hf
  rcases (infix_joinLinesL_iff (by decide) (by decide) _).mp hf with ⟨l2, hmem, hinf⟩
  rcases List.mem_map.mp hmem with ⟨l0, hl0, rfl⟩
  have hl0inf : l0 <:+: l := by
    have := mem_infix_joinLinesL hl0
    rw [joinLinesL_splitLinesL] at this
    exact this
  exact no_fence_fixLineL l0 (not_infix_mono hl0inf h) hinf

theorem no_fence_cleanCodeL (l : List Char) : ¬ fenceL <:+: cleanCodeL l :=
  no_fence_fixColonsL _ (no_fence_findGraphStartL _ (no_fence_stripFencesL l))

/-! ### Helper lemmas for the Extractor -/

theorem foldl_str_append (l : List String) :
    ∀ init : String, l.foldl (· ++ ·) init = init ++ l.foldl (· ++ ·) "" := by
  induction l with
  | nil =>
    intro init
    simp [List.foldl]
  | cons a t ih =>
    intro init
    rw [List.foldl_cons, List.foldl_cons, ih (init ++ a), ih ("" ++ a)]
    simp [String.append_assoc]

theorem join_cons_str (a : String) (ts : List String) :
    String.join (a :: ts) = a ++ String.join ts := by
  show (a :: ts).foldl (· ++ ·) "" = a ++ ts.foldl (· ++ ·) ""
  rw [List.foldl_cons, foldl_str_append ts ("" ++ a)]
  simp

theorem mem_collectTexts_ne (ps : List Part) (s : String)
    (h : s ∈ collectTexts ps) : s ≠ "" := by
  rcases List.mem_filterMap.mp h with ⟨p, _, hp⟩
  cases hpt : p.text with
  | none => rw [hpt] at hp; exact absurd hp (by simp)
  | some s2 =>
    rw [hpt] at hp
    replace hp : (if s2 = "" then (none : Option String) else some s2) = some s := hp
    by_cases h2 : s2 = ""
    · rw [if_pos h2] at hp
      exact absurd hp (by simp)
    · rw [if_neg h2] at hp
      injection hp with hp
      exact hp ▸ h2

theorem str_ne_empty_of_data (s : String) (h : s.data ≠ []) : s ≠ "" := by
  intro he
  subst he
  exact h rfl

theorem join_collectTexts_ne_empty (ps : List Part) (h : collectTexts ps ≠ []) :
    String.join (collectTexts ps) ≠ "" := by
  cases hc : collectTexts ps with
  | nil => exact absurd hc h
  | cons a ts =>
    rw [join_cons_str]
    have ha : a ≠ "" := mem_collectTexts_ne ps a (by rw [hc]; exact List.mem_cons_self a ts)
    have hlen : 0 < a.length := by
      have hd : a.data ≠ [] := by
        intro hd
        apply ha
        cases a with
        | mk d =>
          replace hd : d = [] := hd
          rw [hd]
      show 0 < a.data.length
      exact List.length_pos.mpr hd
    intro he
    have h2 := congrArg String.length he
    rw [String.length_append] at h2
    have h3 : String.length "" = 0 := rfl
    rw [h3] at h2
    omega

/-! ### C1: extraction fallback -/

/-- C1 (counterexample): a response whose direct `text` attribute is present
but empty, and which carries a perfectly good candidates→parts structure,
makes the Extractor fail: strategy 2 is NOT attempted because strategy 1 did
not raise, so `extract` returns `none` even though strategy 2 would have
produced "graph TD". -/
theorem c1_counterexample :
    extract ⟨TextAttr.val (some ""), false, some [⟨some [⟨some "graph TD"⟩]⟩]⟩ = none
      ∧ extractParts ⟨TextAttr.val (some ""), false, some [⟨some [⟨some "graph TD"⟩]⟩]⟩
          = some "graph TD" := by
  constructor
  · rfl
  · decide

/-- C1 (amended): the concatenation of the non-empty part texts is returned
exactly when the probe of the direct text attribute raises a non-AttributeError
exception; then the first candidate's parts are collected in order and joined
with no separator. -/
theorem extract_candidates_of_raising (resp : ModelResponse) (cand : Candidate)
    (cands : List Candidate) (ps : List Part)
    (h1 : resp.textAttr = TextAttr.raising) (h2 : resp.candidatesRaise = false)
    (h3 : resp.candidates = some (cand :: cands)) (h4 : cand.content = some ps)
    (h5 : collectTexts ps ≠ []) :
    extract resp = some (String.join (collectTexts ps)) := by
  rw [extract, extractParts, h1, h2, h3]
  show (match (match cand.content with
        | none => (none : Option String)
        | some ps =>
          if collectTexts ps = [] then none
          else some (String.join (collectTexts ps))) with
      | some s => if s = "" then none else some s
      | none => none) = some (String.join (collectTexts ps))
  rw [h4]
  show (match (if collectTexts ps = [] then (none : Option String)
        else some (String.join (collectTexts ps))) with
      | some s => if s = "" then none else some s
      | none => none) = some (String.join (collectTexts ps))
  rw [if_neg h5]
  show (if String.join (collectTexts ps) = "" then (none : Option String)
      else some (String.join (collectTexts ps))) = some (String.join (collectTexts ps))
  rw [if_neg (join_collectTexts_ne_empty ps h5)]

/-- Witness for the amended C1 at a concrete response. -/
theorem c1_amended_witness :
    extract ⟨TextAttr.raising, false,
        some [⟨some [⟨some "graph "⟩, ⟨none⟩, ⟨some "TD"⟩]⟩]⟩ = some "graph TD" := by
  have h := extract_candidates_of_raising
    ⟨TextAttr.raising, false, some [⟨some [⟨some "graph "⟩, ⟨none⟩, ⟨some "TD"⟩]⟩]⟩
    ⟨some [⟨some "graph "⟩, ⟨none⟩, ⟨some "TD"⟩]⟩ []
    [⟨some "graph "⟩, ⟨none⟩, ⟨some "TD"⟩]
    rfl rfl rfl rfl (by decide)
  rw [h]
  rfl

/-! ### C2: guarantees on the sanitized output -/

/-- C2 (counterexample): on input "x graph TD" the Sanitizer succeeds and
returns "x graph TD", which does not start with "graph". -/
theorem c2_counterexample :
    sanitize "x graph TD" = some "x graph TD"
      ∧ "graph".data.isPrefixOf "x graph TD".data = false := by decide

/-- C2 (amended): every string the Sanitizer produces contains "graph TD" or
"graph LR" (though it need not start with "graph"), and contains no
occurrence of the code-fence marker "```". -/
theorem sanitize_no_fence_and_valid (x y : String) (h : sanitize x = some y) :
    (strContains y "graph TD" = true ∨ strContains y "graph LR" = true)
      ∧ strContains y "```" = false := by
  rw [sanitize] at h
  by_cases hv : validGraph (cleanCode x) = true
  · rw [if_pos hv] at h
    injection h with h
    subst h
    constructor
    · rw [validGraph, validGraphL, Bool.or_eq_true] at hv
      exact hv
    · rw [strContains, Bool.eq_false_iff]
      intro hc
      exact no_fence_cleanCodeL x.data ((containsSubL_iff _ _).mp hc)
  · rw [if_neg hv] at h
    cases h

/-- Witness for the amended C2 at a concrete accepted input. -/
theorem c2_witness :
    (strContains "graph TD" "graph TD" = true
        ∨ strContains "graph TD" "graph LR" = true)
      ∧ strContains "graph TD" "```" = false :=
  sanitize_no_fence_and_valid "graph TD" "graph TD" (by decide)

/-! ### C4: only validated text reaches the renderer -/

/-- C4: whenever the rendering collaborator is invoked at all, the diagram
text handed to it contains "graph TD" or "graph LR"; and when the pipeline
does not produce such a text, the result does not depend on the renderer at
all (it is never called). -/
theorem renderer_only_gets_valid :
    (∀ model code, rendererInput model = some code →
      (strContains code "graph TD" = true ∨ strContains code "graph LR" = true))
    ∧ (∀ req model k1 k2, rendererInput model = none →
        generate_roadmap req model k1 = generate_roadmap req model k2) := by
  constructor
  · intro model code h
    cases model with
    | raising msg => cases h
    | ok resp =>
      rw [rendererInput] at h
      cases hext : extract resp with
      | none => rw [hext] at h; cases h
      | some raw =>
        rw [hext] at h
        simp only [] at h
        rw [sanitize] at h
        by_cases hv : validGraph (cleanCode raw) = true
        · rw [if_pos hv] at h
          injection h with h
          subst h
          rw [validGraph, validGraphL, Bool.or_eq_true] at hv
          exact hv
        · rw [if_neg hv] at h
          cases h
  · intro req model k1 k2 h
    cases model with
    | raising msg => rfl
    | ok resp =>
      rw [rendererInput] at h
      cases hext : extract resp with
      | none =>
        rw [generate_roadmap, generate_roadmap, hext]
      | some raw =>
        rw [hext] at h
        simp only [] at h
        rw [sanitize] at h
        by_cases hv : validGraph (cleanCode raw) = true
        · rw [if_pos hv] at h
          cases h
        · rw [generate_roadmap, generate_roadmap, hext]
          simp only []
          rw [if_neg hv, if_neg hv]

/-- Witness for C4 at concrete inputs. -/
theorem c4_witness :
    (strContains "graph TD" "graph TD" = true
        ∨ strContains "graph TD" "graph LR" = true)
      ∧ generate_roadmap ⟨"Go", "Any", "fast", ""⟩
          (ModelCall.ok ⟨TextAttr.val (some "hello"), false, none⟩)
          (KrokiCall.ok ⟨200, "s"⟩)
        = generate_roadmap ⟨"Go", "Any", "fast", ""⟩
            (ModelCall.ok ⟨TextAttr.val (some "hello"), false, none⟩)
            (KrokiCall.raising "boom") :=
  ⟨renderer_only_gets_valid.1
      (ModelCall.ok ⟨TextAttr.val (some "graph TD"), false, none⟩) "graph TD" (by decide),
    renderer_only_gets_valid.2 ⟨"Go", "Any", "fast", ""⟩
      (ModelCall.ok ⟨TextAttr.val (some "hello"), false, none⟩)
      (KrokiCall.ok ⟨200, "s"⟩) (KrokiCall.raising "boom") (by decide)⟩

/-! ### C5: the worked sanitizer example -/

/-- C5: on the fenced example input the Sanitizer strips the fences and
rewrites the colon in the bracketed label to " -". -/
theorem c5_concrete :
    sanitize "```mermaid\ngraph TD\n  A[Start: Here] --> B[End]\n```"
      = some "graph TD\n  A[Start - Here] --> B[End]" := by decide

/-! ### C6: rendering-failure branches -/

/-- C6: on a non-200 renderer response the handler returns the
syntax-specific error message when the body contains "syntax"
case-insensitively, else the generic message; both carry the sanitized text
and the first 300 characters of the error body. -/
theorem kroki_error_branches (req : RoadmapRequest) (resp : ModelResponse)
    (raw : String) (kr : KrokiResponse)
    (h1 : extract resp = some raw) (h2 : validGraph (cleanCode raw) = true)
    (h3 : ¬ kr.status_code = 200) :
    generate_roadmap req (ModelCall.ok resp) (KrokiCall.ok kr) =
      if strContains (pyLower kr.text) "syntax" then
        Result.errorDetails syntaxErrorMsg (cleanCode raw) (kr.text.take 300)
      else
        Result.errorDetails "Diagram rendering failed" (cleanCode raw) (kr.text.take 300) := by
  rw [generate_roadmap, h1]
  simp only []
  rw [if_pos h2]
  rw [if_neg h3]

/-- Witness for C6: the spec's own example, a 400 response whose body is
"Syntax error on line 2". -/
theorem c6_witness :
    generate_roadmap ⟨"Go", "Any", "fast", ""⟩
        (ModelCall.ok ⟨TextAttr.val (some "graph TD"), false, none⟩)
        (KrokiCall.ok ⟨400, "Syntax error on line 2"⟩) =
      if strContains (pyLower "Syntax error on line 2") "syntax" then
        Result.errorDetails syntaxErrorMsg (cleanCode "graph TD")
          (("Syntax error on line 2" : String).take 300)
      else
        Result.errorDetails "Diagram rendering failed" (cleanCode "graph TD")
          (("Syntax error on line 2" : String).take 300) :=
  kroki_error_branches ⟨"Go", "Any", "fast", ""⟩
    ⟨TextAttr.val (some "graph TD"), false, none⟩ "graph TD"
    ⟨400, "Syntax error on line 2"⟩ (by decide) (by decide) (by decide)

/-! ### C7: the Invalid branch -/

/-- C7 (counterexample): in "x graph TD" no line (after fence stripping and
trimming) has trimmed content beginning with "graph", yet the Sanitizer does
NOT signal Invalid: the validation gate only requires "graph TD"/"graph LR"
to occur somewhere, and it does occur here. -/
theorem c7_counterexample :
    ((splitLinesL (stripFencesL "x graph TD".data)).all
        fun l => !(lineStartsGraph l)) = true
      ∧ sanitize "x graph TD" ≠ none := by decide

/-- C7 (amended): whenever the cleaned text contains neither "graph TD" nor
"graph LR", the Sanitizer signals Invalid and the handler returns the
"No valid graph found" error carrying the first 300 characters of the
cleaned-but-unvalidated text. -/
theorem invalid_graph_returns_error (req : RoadmapRequest) (resp : ModelResponse)
    (raw : String) (kroki : KrokiCall)
    (h1 : extract resp = some raw) (h2 : validGraph (cleanCode raw) = false) :
    sanitize raw = none
      ∧ generate_roadmap req (ModelCall.ok resp) kroki
          = Result.errorRaw "No valid graph found" ((cleanCode raw).take 300) := by
  constructor
  · rw [sanitize, if_neg (by rw [h2]; simp)]
  · rw [generate_roadmap, h1]
    simp only []
    rw [if_neg (show ¬ validGraph (cleanCode raw) = true by rw [h2]; simp)]

/-- Witness for the amended C7 at a concrete invalid extraction. -/
theorem c7_amended_witness :
    sanitize "hello" = none
      ∧ generate_roadmap ⟨"Go", "Any", "fast", ""⟩
          (ModelCall.ok ⟨TextAttr.val (some "hello"), false, none⟩)
          (KrokiCall.ok ⟨200, "s"⟩)
        = Result.errorRaw "No valid graph found" ((cleanCode "hello").take 300) :=
  invalid_graph_returns_error ⟨"Go", "Any", "fast", ""⟩
    ⟨TextAttr.val (some "hello"), false, none⟩ "hello"
    (KrokiCall.ok ⟨200, "s"⟩) (by decide) (by decide)

/-! ### C8: exceptions become structured server errors -/

/-- C8: an exception in the model call, or in the renderer call (the two
places where the embedded code can raise), is caught and surfaces as
`{"error": "Server error: <message>"}`; the handler being a total function
into `Result`, every input yields a structured response. -/
theorem server_error_on_exception :
    (∀ (req : RoadmapRequest) (msg : String) (kroki : KrokiCall),
        generate_roadmap req (ModelCall.raising msg) kroki
          = Result.errorOnly ("Server error: " ++ msg))
    ∧ (∀ (req : RoadmapRequest) (resp : ModelResponse) (raw msg : String),
        extract resp = some raw → validGraph (cleanCode raw) = true →
        generate_roadmap req (ModelCall.ok resp) (KrokiCall.raising msg)
          = Result.errorOnly ("Server error: " ++ msg)) := by
  constructor
  · intro req msg kroki
    rfl
  · intro req resp raw msg h1 h2
    rw [generate_roadmap, h1]
    simp only []
    rw [if_pos h2]

/-- Witness for C8 at concrete inputs. -/
theorem c8_witness :
    generate_roadmap ⟨"Go", "Any", "fast", ""⟩ (ModelCall.raising "boom")
        (KrokiCall.ok ⟨200, "s"⟩)
      = Result.errorOnly ("Server error: " ++ "boom")
    ∧ generate_roadmap ⟨"Go", "Any", "fast", ""⟩
        (ModelCall.ok ⟨TextAttr.val (some "graph TD"), false, none⟩)
        (KrokiCall.raising "timeout")
      = Result.errorOnly ("Server error: " ++ "timeout") :=
  ⟨server_error_on_exception.1 ⟨"Go", "Any", "fast", ""⟩ "boom" (KrokiCall.ok ⟨200, "s"⟩),
    server_error_on_exception.2 ⟨"Go", "Any", "fast", ""⟩
      ⟨TextAttr.val (some "graph TD"), false, none⟩ "graph TD" "timeout"
      (by decide) (by decide)⟩

/-! ### C9: the language field does not influence the prompt -/

/-- C9: two requests agreeing on skill, speed and custom_prompt produce the
same prompt regardless of their language fields. -/
theorem prompt_ignores_language (r1 r2 : RoadmapRequest)
    (h1 : r1.skill = r2.skill) (h2 : r1.speed = r2.speed)
    (h3 : r1.custom_prompt = r2.custom_prompt) :
    buildPrompt r1 = buildPrompt r2 := by
  rw [buildPrompt, buildPrompt, h1, h2, h3]

/-- Witness for C9: identical prompts for two languages. -/
theorem c9_witness :
    buildPrompt ⟨"Python", "English", "fast", ""⟩
      = buildPrompt ⟨"Python", "French", "fast", ""⟩ :=
  prompt_ignores_language _ _ rfl rfl rfl

/-! ### C10: the success branch passes the body through verbatim -/

/-- C10: on a 200 renderer response the handler returns success with the
sanitized text and the response body passed through verbatim as `svg`,
whatever the body is. -/
theorem success_branch (req : RoadmapRequest) (resp : ModelResponse)
    (raw : String) (kr : KrokiResponse)
    (h1 : extract resp = some raw) (h2 : validGraph (cleanCode raw) = true)
    (h3 : kr.status_code = 200) :
    generate_roadmap req (ModelCall.ok resp) (KrokiCall.ok kr)
      = Result.success (cleanCode raw) kr.text := by
  rw [generate_roadmap, h1]
  simp only []
  rw [if_pos h2]
  rw [if_pos h3]

/-- Witness for C10, with a body that is not SVG at all (empty string). -/
theorem c10_witness :
    generate_roadmap ⟨"Go", "Any", "fast", ""⟩
        (ModelCall.ok ⟨TextAttr.val (some "graph TD"), false, none⟩)
        (KrokiCall.ok ⟨200, ""⟩)
      = Result.success (cleanCode "graph TD") "" :=
  success_branch ⟨"Go", "Any", "fast", ""⟩
    ⟨TextAttr.val (some "graph TD"), false, none⟩ "graph TD" ⟨200, ""⟩
    (by decide) (by decide) (by decide)

/-! ### Trailing whitespace is never produced by the cleaning pipeline -/

theorem getLastD_append_right {α : Type} (a b : List α) (hb : b ≠ []) (d : α) :
    (a ++ b).getLastD d = b.getLastD d := by
  rcases List.eq_nil_or_concat b with rfl | ⟨b2, e, rfl⟩
  · exact absurd rfl hb
  · rw [List.concat_eq_append, ← List.append_assoc, List.getLastD_concat,
      List.getLastD_concat]

theorem getLastD_irrel {α : Type} (l : List α) (h : l ≠ []) (d1 d2 : α) :
    l.getLastD d1 = l.getLastD d2 := by
  rcases List.eq_nil_or_concat l with rfl | ⟨b, e, rfl⟩
  · exact absurd rfl h
  · rw [List.concat_eq_append, List.getLastD_concat, List.getLastD_concat]

theorem getLastD_map_nil (f : List Char → List Char) (ls : List (List Char))
    (hf : f [] = []) : (ls.map f).getLastD [] = f (ls.getLastD []) := by
  rcases List.eq_nil_or_concat ls with rfl | ⟨b, e, rfl⟩
  · simp [hf]
  · rw [List.concat_eq_append, List.map_append, List.map_singleton,
      List.getLastD_concat, List.getLastD_concat]

theorem getLastD_drop (i : Nat) (ls : List (List Char)) (h : i < ls.length) :
    (List.drop i ls).getLastD ([] : List Char) = ls.getLastD [] := by
  induction i generalizing ls with
  | zero => rw [List.drop_zero]
  | succ i ih =>
    cases ls with
    | nil => simp at h
    | cons a t =>
      rw [List.drop_succ_cons, ih t (by simpa using h), List.getLastD_cons]
      have ht : t ≠ [] := by
        have : 0 < t.length := by simp at h; omega
        exact List.length_pos.mp this
      exact getLastD_irrel t ht [] a

theorem joinLinesL_ex_append_last (ls : List (List Char)) (hne : ls ≠ []) :
    ∃ a, joinLinesL ls = a ++ ls.getLastD [] := by
  induction ls with
  | nil => exact absurd rfl hne
  | cons l0 t ih =>
    cases t with
    | nil => exact ⟨[], by rw [joinLinesL_single]; simp⟩
    | cons r1 rs =>
      rcases ih (by simp) with ⟨a2, ha2⟩
      refine ⟨l0 ++ '\n' :: a2, ?_⟩
      rw [joinLinesL_cons₂, ha2]
      simp only [List.getLastD_cons]
      simp

theorem joinLinesL_concat_nil (b : List (List Char)) (hb : b ≠ []) :
    joinLinesL (b ++ [[]]) = joinLinesL b ++ ['\n'] := by
  induction b with
  | nil => exact absurd rfl hb
  | cons l0 t ih =>
    cases t with
    | nil =>
      show joinLinesL [l0, []] = joinLinesL [l0] ++ ['\n']
      rw [joinLinesL_cons₂, joinLinesL_single, joinLinesL_single]
    | cons r1 rs =>
      have h1 : (l0 :: r1 :: rs) ++ [[]] = l0 :: r1 :: (rs ++ [[]]) := by simp
      rw [h1, joinLinesL_cons₂]
      have h2 : r1 :: (rs ++ [[]]) = (r1 :: rs) ++ [[]] := by simp
      rw [h2, ih (by simp), joinLinesL_cons₂]
      simp

theorem noTrailWs_joinLinesL_of (ls : List (List Char)) (hne : ls ≠ [])
    (h1 : ls.getLastD [] ≠ []) (h2 : noTrailWs (ls.getLastD [])) :
    noTrailWs (joinLinesL ls) := by
  rcases joinLinesL_ex_append_last ls hne with ⟨a, ha⟩
  show pyWs ((joinLinesL ls).getLastD 'g') = false
  rw [ha, getLastD_append_right a _ h1]
  exact h2

theorem last_of_noTrailWs_joinLinesL (ls : List (List Char)) (hne : ls ≠ [])
    (h : noTrailWs (joinLinesL ls)) :
    ls = [[]] ∨ (ls.getLastD [] ≠ [] ∧ noTrailWs (ls.getLastD [])) := by
  rcases List.eq_nil_or_concat ls with rfl | ⟨b, L, rfl⟩
  · exact absurd rfl hne
  · rw [List.concat_eq_append] at h ⊢
    by_cases hL : L = []
    · subst hL
      cases b with
      | nil => exact Or.inl rfl
      | cons b0 bt =>
        exfalso
        rw [joinLinesL_concat_nil (b0 :: bt) (by simp)] at h
        have : pyWs ((joinLinesL (b0 :: bt) ++ ['\n']).getLastD 'g') = false := h
        rw [List.getLastD_concat] at this
        exact absurd this (by decide)
    · right
      rw [List.getLastD_concat]
      refine ⟨hL, ?_⟩
      rcases joinLinesL_ex_append_last (b ++ [L]) (by simp) with ⟨a, ha⟩
      have hlast : (b ++ [L]).getLastD ([] : List Char) = L := List.getLastD_concat _ _ _
      rw [ha, hlast] at h
      replace h : pyWs ((a ++ L).getLastD 'g') = false := h
      rw [getLastD_append_right a L hL 'g'] at h
      exact h

theorem noTrailWs_substL (l : List Char) (h : noTrailWs l) :
    noTrailWs (substL ':' " -".data l) := by
  induction l with
  | nil => exact h
  | cons c t ih =>
    cases t with
    | nil =>
      show noTrailWs ((if c = ':' then " -".data else [c]) ++ substL ':' " -".data [])
      by_cases hc : c = ':'
      · rw [if_pos hc]
        show pyWs ((" -".data ++ substL ':' " -".data []).getLastD 'g') = false
        decide
      · rw [if_neg hc]
        exact h
    | cons d u =>
      have hnt : noTrailWs (d :: u) := by
        show pyWs ((d :: u).getLastD 'g') = false
        have hne : d :: u ≠ [] := by simp
        rw [getLastD_irrel _ hne 'g' c]
        exact h
      have ihs := ih hnt
      have hsne : substL ':' " -".data (d :: u) ≠ [] := by
        intro he
        exact absurd ((substL_eq_nil_iff ':' " -".data (by decide) (d :: u)).mp he) (by simp)
      show pyWs (((if c = ':' then " -".data else [c])
          ++ substL ':' " -".data (d :: u)).getLastD 'g') = false
      rw [getLastD_append_right _ _ hsne]
      exact ihs

theorem fixLineL_eq_nil_iff (l : List Char) : fixLineL l = [] ↔ l = [] := by
  rw [fixLineL]
  by_cases hb : (l.contains '[' && l.contains ']') = true
  · rw [if_pos hb, pyReplaceL_singleton]
    exact substL_eq_nil_iff ':' " -".data (by decide) l
  · rw [if_neg hb]

theorem noTrailWs_fixLineL (l : List Char) (h : noTrailWs l) :
    noTrailWs (fixLineL l) := by
  rw [fixLineL]
  by_cases hb : (l.contains '[' && l.contains ']') = true
  · rw [if_pos hb, pyReplaceL_singleton]
    exact noTrailWs_substL l h
  · rw [if_neg hb]
    exact h

theorem findIdx?_lt (p : List Char → Bool) (ls : List (List Char)) (i : Nat)
    (h : List.findIdx? p ls = some i) : i < ls.length :=
  (List.findIdx?_eq_some_iff_findIdx_eq.mp h).1

theorem findIdx?_getElem (p : List Char → Bool) (ls : List (List Char)) (i : Nat)
    (h : List.findIdx? p ls = some i) (hi : i < ls.length) : p ls[i] = true := by
  rcases List.findIdx?_eq_some_iff_findIdx_eq.mp h with ⟨_, h2⟩
  subst h2
  exact List.findIdx_getElem

theorem noTrailWs_nil : noTrailWs ([] : List Char) := by
  show pyWs (([] : List Char).getLastD 'g') = false
  decide

theorem noTrailWs_findGraphStartL (l : List Char) (h : noTrailWs l) :
    noTrailWs (findGraphStartL l) := by
  rw [findGraphStartL]
  by_cases hga : "graph".data.isPrefixOf l = true
  · rw [if_pos hga]
    exact h
  · rw [if_neg hga]
    cases hidx : (splitLinesL l).findIdx? lineStartsGraph with
    | none => exact h
    | some i =>
      show noTrailWs (joinLinesL ((splitLinesL l).drop i))
      have hlt : i < (splitLinesL l).length := findIdx?_lt _ _ _ hidx
      have hdne : List.drop i (splitLinesL l) ≠ [] := by
        rw [Ne, List.drop_eq_nil_iff]
        omega
      have hjoin : noTrailWs (joinLinesL (splitLinesL l)) := by
        rw [joinLinesL_splitLinesL]
        exact h
      rcases last_of_noTrailWs_joinLinesL _ (splitLinesL_ne_nil l) hjoin with
        hsing | ⟨hL, hLnt⟩
      · rw [hsing]
        rw [hsing] at hlt
        simp only [List.length_singleton] at hlt
        have hi0 : i = 0 := by omega
        subst hi0
        rw [List.drop_zero, joinLinesL_single]
        exact noTrailWs_nil
      · apply noTrailWs_joinLinesL_of _ hdne
        · rw [getLastD_drop i _ hlt]
          exact hL
        · rw [getLastD_drop i _ hlt]
          exact hLnt

theorem splitLinesL_fixColonsL (l : List Char) :
    splitLinesL (fixColonsL l) = (splitLinesL l).map fixLineL := by
  rw [fixColonsL]
  apply splitLinesL_joinLinesL
  · intro l2 h2
    rcases List.mem_map.mp h2 with ⟨l0, hl0, rfl⟩
    exact newline_not_mem_fixLineL l0 (no_newline_mem_splitLinesL l l0 hl0)
  · rw [Ne, List.map_eq_nil_iff]
    exact splitLinesL_ne_nil l

theorem fixLineL_nil : fixLineL [] = [] := rfl

theorem noTrailWs_fixColonsL (l : List Char) (h : noTrailWs l) :
    noTrailWs (fixColonsL l) := by
  have hjoin : noTrailWs (joinLinesL (splitLinesL l)) := by
    rw [joinLinesL_splitLinesL]
    exact h
  rcases last_of_noTrailWs_joinLinesL _ (splitLinesL_ne_nil l) hjoin with
    hsing | ⟨hL, hLnt⟩
  · rw [fixColonsL, hsing]
    show noTrailWs (joinLinesL [fixLineL []])
    rw [fixLineL_nil, joinLinesL_single]
    exact noTrailWs_nil
  · rw [fixColonsL]
    apply noTrailWs_joinLinesL_of
    · rw [Ne, List.map_eq_nil_iff]
      exact splitLinesL_ne_nil l
    · rw [getLastD_map_nil fixLineL _ fixLineL_nil, Ne, fixLineL_eq_nil_iff]
      exact hL
    · rw [getLastD_map_nil fixLineL _ fixLineL_nil]
      exact noTrailWs_fixLineL _ hLnt

theorem noTrailWs_cleanCodeL (l : List Char) : noTrailWs (cleanCodeL l) :=
  noTrailWs_fixColonsL _ (noTrailWs_findGraphStartL _ (noTrailWs_pyStripL _))

theorem noTrailWs_lstripL (l : List Char) (h : noTrailWs l) :
    noTrailWs (lstripL l) := by
  cases hls : lstripL l with
  | nil => exact noTrailWs_nil
  | cons c t =>
    rcases lstripL_suffix l with ⟨a, ha⟩
    show pyWs ((c :: t).getLastD 'g') = false
    rw [← hls]
    have h2 : pyWs ((a ++ lstripL l).getLastD 'g') = false := by
      rw [ha]
      exact h
    rw [getLastD_append_right a _ (by rw [hls]; simp)] at h2
    exact h2

/-! ### Lines of the pipeline output are already fully rewritten -/

theorem contains_iff (l : List Char) (c : Char) : l.contains c = true ↔ c ∈ l :=
  List.elem_iff

theorem lstripL_cons_ws (c : Char) (t : List Char) (h : pyWs c = true) :
    lstripL (c :: t) = lstripL t := by
  simp [lstripL, List.dropWhile_cons, h]

theorem lstripL_cons_nws (c : Char) (t : List Char) (h : pyWs c = false) :
    lstripL (c :: t) = c :: t := by
  simp [lstripL, List.dropWhile_cons, h]

theorem mem_lstripL_iff (c : Char) (hc : pyWs c = false) :
    ∀ l, (c ∈ lstripL l ↔ c ∈ l) := by
  intro l
  induction l with
  | nil => exact Iff.rfl
  | cons d t ih =>
    by_cases hd : pyWs d = true
    · rw [lstripL_cons_ws d t hd, ih, List.mem_cons]
      constructor
      · exact Or.inr
      · rintro (rfl | h2)
        · rw [hd] at hc
          cases hc
        · exact h2
    · rw [lstripL_cons_nws d t (by rw [Bool.eq_false_iff]; exact hd)]

theorem fixLineL_subst_form (l : List Char)
    (hb : (l.contains '[' && l.contains ']') = true) :
    fixLineL l = substL ':' " -".data l := by
  rw [fixLineL, if_pos hb, pyReplaceL_singleton]

theorem fixLineL_id_form (l : List Char)
    (hb : ¬ (l.contains '[' && l.contains ']') = true) : fixLineL l = l := by
  rw [fixLineL, if_neg hb]

theorem no_colon_of_fixed (l : List Char)
    (hb : (l.contains '[' && l.contains ']') = true)
    (hx : fixLineL l = l) : ':' ∉ l := by
  rw [fixLineL_subst_form l hb] at hx
  intro hmem
  rw [← hx] at hmem
  exact not_mem_substL ':' " -".data (by decide) l hmem

theorem fixLineL_idem (l : List Char) : fixLineL (fixLineL l) = fixLineL l := by
  by_cases hb : (l.contains '[' && l.contains ']') = true
  · rw [fixLineL_subst_form l hb]
    have hbs : ((substL ':' " -".data l).contains '[' &&
        (substL ':' " -".data l).contains ']') = true := by
      rw [Bool.and_eq_true] at hb ⊢
      rw [contains_iff, contains_iff] at hb ⊢
      exact ⟨(mem_substL_iff ':' " -".data '[' (by decide) (by decide) l).mpr hb.1,
        (mem_substL_iff ':' " -".data ']' (by decide) (by decide) l).mpr hb.2⟩
    rw [fixLineL_subst_form _ hbs]
    exact substL_id_of_not_mem ':' " -".data _
      (not_mem_substL ':' " -".data (by decide) l)
  · rw [fixLineL_id_form l hb, fixLineL_id_form l hb]

theorem fixedLine_lstrip (x : List Char) (hx : fixLineL x = x) :
    fixLineL (lstripL x) = lstripL x := by
  by_cases hb : ((lstripL x).contains '[' && (lstripL x).contains ']') = true
  · have hbx : (x.contains '[' && x.contains ']') = true := by
      rw [Bool.and_eq_true] at hb ⊢
      rw [contains_iff, contains_iff] at hb ⊢
      exact ⟨(mem_lstripL_iff '[' (by decide) x).mp hb.1,
        (mem_lstripL_iff ']' (by decide) x).mp hb.2⟩
    have hnc : ':' ∉ x := no_colon_of_fixed x hbx hx
    have hnc2 : ':' ∉ lstripL x :=
      fun hm => hnc (List.IsSuffix.subset (lstripL_suffix x) hm)
    rw [fixLineL_subst_form _ hb]
    exact substL_id_of_not_mem ':' " -".data _ hnc2
  · exact fixLineL_id_form _ hb

theorem fixColonsL_eq_self (l : List Char)
    (h : ∀ l2 ∈ splitLinesL l, fixLineL l2 = l2) : fixColonsL l = l := by
  have hm : (splitLinesL l).map fixLineL = (splitLinesL l).map id :=
    List.map_congr_left h
  rw [fixColonsL, hm, List.map_id, joinLinesL_splitLinesL]

theorem fixColons_lines_fixed (w : List Char) :
    ∀ l2 ∈ splitLinesL (fixColonsL w), fixLineL l2 = l2 := by
  intro l2 h2
  rw [splitLinesL_fixColonsL] at h2
  rcases List.mem_map.mp h2 with ⟨l0, _, rfl⟩
  exact fixLineL_idem l0

/-! ### The graph-scan condition through the pipeline -/

theorem lineStartsGraph_iff (l : List Char) :
    lineStartsGraph l = true ↔ "graph".data <+: lstripL l := by
  rw [lineStartsGraph, List.isPrefixOf_iff_prefix]
  constructor
  · intro h
    exact h.trans (rstripL_prefixOf (lstripL l))
  · intro h
    rcases h with ⟨rest, hrest⟩
    show "graph".data <+: rstripL (lstripL l)
    rw [← hrest,
      show ("graph".data ++ rest : List Char) = "grap".data ++ 'h' :: rest from rfl,
      rstripL_append_not_ws "grap".data 'h' rest (by decide)]
    exact ⟨rstripL rest, rfl⟩

theorem graph_lstrip_subst (l : List Char) :
    ("graph".data <+: lstripL (substL ':' " -".data l))
      ↔ ("graph".data <+: lstripL l) := by
  induction l with
  | nil => exact Iff.rfl
  | cons c t ih =>
    by_cases hw : pyWs c = true
    · have hcol : ¬ c = ':' := by
        intro he
        rw [he] at hw
        cases hw
      show ("graph".data <+: lstripL ((if c = ':' then " -".data else [c])
          ++ substL ':' " -".data t)) ↔ _
      rw [if_neg hcol, List.singleton_append, lstripL_cons_ws c _ hw,
        lstripL_cons_ws c t hw]
      exact ih
    · have hwf : pyWs c = false := by rw [Bool.eq_false_iff]; exact hw
      by_cases hcol : c = ':'
      · subst hcol
        show ("graph".data <+: lstripL (' ' :: '-' :: substL ':' " -".data t)) ↔ _
        rw [lstripL_cons_ws ' ' _ (by decide), lstripL_cons_nws '-' _ (by decide),
          lstripL_cons_nws ':' t (by decide)]
        constructor
        · intro hp
          exact absurd (List.cons_prefix_cons.mp hp).1 (by decide)
        · intro hp
          exact absurd (List.cons_prefix_cons.mp hp).1 (by decide)
      · show ("graph".data <+: lstripL ((if c = ':' then " -".data else [c])
            ++ substL ':' " -".data t)) ↔ _
        rw [if_neg hcol, List.singleton_append, lstripL_cons_nws c _ hwf,
          lstripL_cons_nws c t hwf,
          show ("graph".data : List Char) = 'g' :: "raph".data from rfl,
          List.cons_prefix_cons, List.cons_prefix_cons,
          prefix_substL_iff t "raph".data (by decide)]

theorem lineStartsGraph_substL (l : List Char) :
    lineStartsGraph (substL ':' " -".data l) = lineStartsGraph l := by
  rw [Bool.eq_iff_iff, lineStartsGraph_iff, lineStartsGraph_iff]
  exact graph_lstrip_subst l

theorem lineStartsGraph_fixLineL (l : List Char) :
    lineStartsGraph (fixLineL l) = lineStartsGraph l := by
  by_cases hb : (l.contains '[' && l.contains ']') = true
  · rw [fixLineL_subst_form l hb, lineStartsGraph_substL]
  · rw [fixLineL_id_form l hb]

theorem graph_prefix_join (f0 : List Char) (rest : List (List Char))
    (h : "graph".data <+: f0) : "graph".data <+: joinLinesL (f0 :: rest) := by
  cases rest with
  | nil => rw [joinLinesL_single]; exact h
  | cons b u =>
    rw [joinLinesL_cons₂]
    exact h.trans (List.prefix_append f0 _)

theorem prefix_of_join_cons (pat f0 : List Char) (rest : List (List Char))
    (hn : '\n' ∉ pat) (h : pat <+: joinLinesL (f0 :: rest)) : pat <+: f0 := by
  cases rest with
  | nil => rw [joinLinesL_single] at h; exact h
  | cons b u =>
    rw [joinLinesL_cons₂] at h
    exact prefix_of_append_cons_not_mem hn h

theorem ex_nonws_substL (l : List Char) (h : ∃ c ∈ l, pyWs c = false) :
    ∃ c ∈ substL ':' " -".data l, pyWs c = false := by
  induction l with
  | nil => simp at h
  | cons d t ih =>
    rcases h with ⟨c, hc, hcw⟩
    rcases List.mem_cons.mp hc with rfl | hct
    · by_cases hcol : c = ':'
      · refine ⟨'-', ?_, by decide⟩
        show '-' ∈ (if c = ':' then " -".data else [c]) ++ substL ':' " -".data t
        rw [if_pos hcol]
        exact List.mem_append.mpr (Or.inl (by decide))
      · refine ⟨c, ?_, hcw⟩
        show c ∈ (if c = ':' then " -".data else [c]) ++ substL ':' " -".data t
        rw [if_neg hcol]
        exact List.mem_append.mpr (Or.inl (List.mem_singleton_self c))
    · rcases ih ⟨c, hct, hcw⟩ with ⟨e, he, hew⟩
      refine ⟨e, ?_, hew⟩
      show e ∈ (if d = ':' then " -".data else [d]) ++ substL ':' " -".data t
      exact List.mem_append.mpr (Or.inr he)

theorem ex_nonws_fixLineL (l : List Char) (h : ∃ c ∈ l, pyWs c = false) :
    ∃ c ∈ fixLineL l, pyWs c = false := by
  by_cases hb : (l.contains '[' && l.contains ']') = true
  · rw [fixLineL_subst_form l hb]
    exact ex_nonws_substL l h
  · rw [fixLineL_id_form l hb]
    exact h

theorem fixLineL_graph (l : List Char) (h : "graph".data <+: l) :
    "graph".data <+: fixLineL l := by
  by_cases hb : (l.contains '[' && l.contains ']') = true
  · rw [fixLineL_subst_form l hb]
    exact (prefix_substL_iff l "graph".data (by decide)).mpr h
  · rw [fixLineL_id_form l hb]
    exact h

theorem lstripL_idem (l : List Char) : lstripL (lstripL l) = lstripL l :=
  lstripL_eq_self _ (noLeadWs_lstripL l)

theorem lstripL_ne_nil_of_ex (l : List Char) (h : ∃ c ∈ l, pyWs c = false) :
    lstripL l ≠ [] := by
  rw [Ne, lstripL, List.dropWhile_eq_nil_iff]
  intro hall
  rcases h with ⟨c, hc, hcf⟩
  rw [hall c hc] at hcf
  cases hcf

theorem splitLinesL_eq_single (l : List Char) (h : '\n' ∉ l) :
    splitLinesL l = [l] := by
  show List.splitOnP (fun a => a == '\n') l = [l]
  apply List.splitOnP_eq_single
  intro x hx
  simp only [beq_iff_eq]
  exact fun he => h (he ▸ hx)

theorem splitLinesL_lstrip (yl l0 : List Char) (rest : List (List Char))
    (h : splitLinesL yl = l0 :: rest) (hex : ∃ c ∈ l0, pyWs c = false) :
    splitLinesL (lstripL yl) = lstripL l0 :: rest
      ∧ lstripL yl = joinLinesL (lstripL l0 :: rest) := by
  have hyl : yl = joinLinesL (l0 :: rest) := by
    rw [← h, joinLinesL_splitLinesL]
  have hnl0 : '\n' ∉ l0 :=
    no_newline_mem_splitLinesL yl l0 (by rw [h]; exact List.mem_cons_self _ _)
  have hnls : '\n' ∉ lstripL l0 :=
    fun hm => hnl0 (List.IsSuffix.subset (lstripL_suffix l0) hm)
  cases rest with
  | nil =>
    have hyl2 : yl = l0 := by rw [hyl, joinLinesL_single]
    constructor
    · rw [hyl2]
      exact splitLinesL_eq_single _ hnls
    · rw [hyl2, joinLinesL_single]
  | cons r1 rs =>
    have hyl2 : yl = l0 ++ '\n' :: joinLinesL (r1 :: rs) := by
      rw [hyl, joinLinesL_cons₂]
    have hlne : List.dropWhile pyWs l0 ≠ [] := lstripL_ne_nil_of_ex l0 hex
    have hlstrip : lstripL yl = lstripL l0 ++ '\n' :: joinLinesL (r1 :: rs) := by
      rw [hyl2, lstripL, List.dropWhile_append,
        if_neg (fun he => hlne (List.isEmpty_iff.mp he))]
      rfl
    have hjoin2 : lstripL yl = joinLinesL (lstripL l0 :: r1 :: rs) := by
      rw [hlstrip, joinLinesL_cons₂]
    refine ⟨?_, hjoin2⟩
    rw [hjoin2]
    apply splitLinesL_joinLinesL
    · intro l2 hl2
      rcases List.mem_cons.mp hl2 with rfl | h2
      · exact hnls
      · exact no_newline_mem_splitLinesL yl l2
          (by rw [h]; exact List.mem_cons_of_mem _ h2)
    · simp

/-! ### The second pass of the cleaner only strips leading whitespace -/

theorem fence_of_mermaid {x : List Char} (h : mermaidFenceL <:+: x) :
    fenceL <:+: x := by
  have hp : fenceL <+: mermaidFenceL := List.isPrefixOf_iff_prefix.mp (by decide)
  exact (List.IsPrefix.isInfix hp).trans h

theorem stripFencesL_eq_pyStripL (l : List Char) (h : ¬ fenceL <:+: l) :
    stripFencesL l = pyStripL l := by
  have h1 : ¬ fenceL <:+: pyStripL l := not_infix_mono (pyStripL_sub l) h
  have h2 : ¬ mermaidFenceL <:+: pyStripL l := fun hm => h1 (fence_of_mermaid hm)
  rw [stripFencesL, pyReplaceL_id_of_no_occ mermaidFenceL [] _ h2,
    pyReplaceL_id_of_no_occ fenceL [] _ h1, pyStripL_idem]

theorem clean_z_of_first_graph (yl f0 : List Char) (rest3 : List (List Char))
    (hlines : splitLinesL yl = f0 :: rest3)
    (hfixed : ∀ l2 ∈ splitLinesL yl, fixLineL l2 = l2)
    (hg : lineStartsGraph f0 = true) :
    fixColonsL (findGraphStartL (lstripL yl)) = lstripL yl := by
  have hgp : "graph".data <+: lstripL f0 := (lineStartsGraph_iff f0).mp hg
  have hex : ∃ c ∈ f0, pyWs c = false := by
    rcases hgp with ⟨rest, hrest⟩
    refine ⟨'g', ?_, by decide⟩
    have hgmem : 'g' ∈ lstripL f0 := by
      rw [← hrest]
      exact List.mem_append.mpr (Or.inl (by decide))
    exact List.IsSuffix.subset (lstripL_suffix f0) hgmem
  rcases splitLinesL_lstrip yl f0 rest3 hlines hex with ⟨hsplit, hjoin⟩
  have hzg : "graph".data <+: lstripL yl := by
    rw [hjoin]
    exact graph_prefix_join _ _ hgp
  have hfind : findGraphStartL (lstripL yl) = lstripL yl := by
    rw [findGraphStartL, if_pos (List.isPrefixOf_iff_prefix.mpr hzg)]
  rw [hfind]
  apply fixColonsL_eq_self
  intro l2 hl2
  rw [hsplit] at hl2
  rcases List.mem_cons.mp hl2 with rfl | h2
  · exact fixedLine_lstrip f0 (hfixed f0 (by rw [hlines]; exact List.mem_cons_self _ _))
  · exact hfixed l2 (by rw [hlines]; exact List.mem_cons_of_mem _ h2)

theorem clean_z_of_no_graph (yl f0 : List Char) (rest3 : List (List Char))
    (hlines : splitLinesL yl = f0 :: rest3)
    (hfixed : ∀ l2 ∈ splitLinesL yl, fixLineL l2 = l2)
    (hex : ∃ c ∈ f0, pyWs c = false)
    (hnog : ∀ l2 ∈ splitLinesL yl, lineStartsGraph l2 = false) :
    fixColonsL (findGraphStartL (lstripL yl)) = lstripL yl := by
  rcases splitLinesL_lstrip yl f0 rest3 hlines hex with ⟨hsplit, hjoin⟩
  have hgf0 : lineStartsGraph f0 = false :=
    hnog f0 (by rw [hlines]; exact List.mem_cons_self _ _)
  have hnpre : ¬ "graph".data.isPrefixOf (lstripL yl) = true := by
    rw [List.isPrefixOf_iff_prefix]
    intro hp
    rw [hjoin] at hp
    have h2 : "graph".data <+: lstripL f0 := prefix_of_join_cons _ _ _ (by decide) hp
    exact absurd ((lineStartsGraph_iff f0).mpr h2) (by rw [hgf0]; simp)
  have hnone : (splitLinesL (lstripL yl)).findIdx? lineStartsGraph = none := by
    rw [List.findIdx?_eq_none_iff]
    intro l2 hl2
    rw [hsplit] at hl2
    rcases List.mem_cons.mp hl2 with rfl | h2
    · rw [Bool.eq_false_iff]
      intro ht
      rw [lineStartsGraph_iff, lstripL_idem] at ht
      exact absurd ((lineStartsGraph_iff f0).mpr ht) (by rw [hgf0]; simp)
    · exact hnog l2 (by rw [hlines]; exact List.mem_cons_of_mem _ h2)
  have hfind : findGraphStartL (lstripL yl) = lstripL yl := by
    rw [findGraphStartL, if_neg hnpre, hnone]
  rw [hfind]
  apply fixColonsL_eq_self
  intro l2 hl2
  rw [hsplit] at hl2
  rcases List.mem_cons.mp hl2 with rfl | h2
  · exact fixedLine_lstrip f0 (hfixed f0 (by rw [hlines]; exact List.mem_cons_self _ _))
  · exact hfixed l2 (by rw [hlines]; exact List.mem_cons_of_mem _ h2)

theorem cleanCodeL_self (l : List Char) :
    cleanCodeL (cleanCodeL l) = pyStripL (cleanCodeL l) := by
  have hz : pyStripL (cleanCodeL l) = lstripL (cleanCodeL l) := by
    rw [pyStripL, rstripL_eq_self _ (noTrailWs_lstripL _ (noTrailWs_cleanCodeL l))]
  have hstep : cleanCodeL (cleanCodeL l) =
      fixColonsL (findGraphStartL (lstripL (cleanCodeL l))) := by
    show fixColonsL (findGraphStartL (stripFencesL (cleanCodeL l))) = _
    rw [stripFencesL_eq_pyStripL _ (no_fence_cleanCodeL l), hz]
  rw [hstep, hz]
  have hfixed : ∀ l2 ∈ splitLinesL (cleanCodeL l), fixLineL l2 = l2 :=
    fixColons_lines_fixed (findGraphStartL (stripFencesL l))
  have hlines0 : splitLinesL (cleanCodeL l) =
      (splitLinesL (findGraphStartL (stripFencesL l))).map fixLineL :=
    splitLinesL_fixColonsL _
  by_cases hga : "graph".data.isPrefixOf (stripFencesL l) = true
  · -- the fence-stripped text itself starts with "graph"
    have hs5 : findGraphStartL (stripFencesL l) = stripFencesL l := by
      rw [findGraphStartL, if_pos hga]
    cases hq : splitLinesL (stripFencesL l) with
    | nil => exact absurd hq (splitLinesL_ne_nil _)
    | cons q0 qrest =>
      have hjq : stripFencesL l = joinLinesL (q0 :: qrest) := by
        rw [← hq, joinLinesL_splitLinesL]
      have hp4 : "graph".data <+: stripFencesL l := List.isPrefixOf_iff_prefix.mp hga
      rw [hjq] at hp4
      have hp0 : "graph".data <+: q0 := prefix_of_join_cons _ _ _ (by decide) hp4
      have hpf : "graph".data <+: fixLineL q0 := fixLineL_graph q0 hp0
      have hlead : noLeadWs (fixLineL q0) := by
        rcases hpf with ⟨u, hu⟩
        show pyWs ((fixLineL q0).headD 'g') = false
        rw [← hu,
          show ("graph".data ++ u : List Char) = 'g' :: ("raph".data ++ u) from rfl,
          List.headD_cons]
        decide
      have hgf0 : lineStartsGraph (fixLineL q0) = true := by
        rw [lineStartsGraph_iff, lstripL_eq_self _ hlead]
        exact hpf
      have hlines : splitLinesL (cleanCodeL l)
          = fixLineL q0 :: qrest.map fixLineL := by
        rw [hlines0, hs5, hq, List.map_cons]
      exact clean_z_of_first_graph _ _ _ hlines hfixed hgf0
  · cases hidx : (splitLinesL (stripFencesL l)).findIdx? lineStartsGraph with
    | some i =>
      have hs5 : findGraphStartL (stripFencesL l)
          = joinLinesL ((splitLinesL (stripFencesL l)).drop i) := by
        rw [findGraphStartL, if_neg hga, hidx]
      have hlt : i < (splitLinesL (stripFencesL l)).length := findIdx?_lt _ _ _ hidx
      have hgget : lineStartsGraph (splitLinesL (stripFencesL l))[i] = true :=
        findIdx?_getElem _ _ _ hidx hlt
      have hdrop : (splitLinesL (stripFencesL l)).drop i
          = (splitLinesL (stripFencesL l))[i] :: (splitLinesL (stripFencesL l)).drop (i + 1) :=
        List.drop_eq_getElem_cons hlt
      have hsplit5 : splitLinesL (findGraphStartL (stripFencesL l))
          = (splitLinesL (stripFencesL l)).drop i := by
        rw [hs5]
        apply splitLinesL_joinLinesL
        · intro l2 hl2
          exact no_newline_mem_splitLinesL (stripFencesL l) l2
            (List.drop_subset i _ hl2)
        · rw [Ne, List.drop_eq_nil_iff]
          omega
      have hlines : splitLinesL (cleanCodeL l)
          = fixLineL ((splitLinesL (stripFencesL l))[i])
            :: ((splitLinesL (stripFencesL l)).drop (i + 1)).map fixLineL := by
        rw [hlines0, hsplit5, hdrop, List.map_cons]
      have hgf0 : lineStartsGraph (fixLineL ((splitLinesL (stripFencesL l))[i])) = true := by
        rw [lineStartsGraph_fixLineL]
        exact hgget
      exact clean_z_of_first_graph _ _ _ hlines hfixed hgf0
    | none =>
      have hs5 : findGraphStartL (stripFencesL l) = stripFencesL l := by
        rw [findGraphStartL, if_neg hga, hidx]
      have hnone : ∀ l2 ∈ splitLinesL (stripFencesL l), lineStartsGraph l2 = false :=
        List.findIdx?_eq_none_iff.mp hidx
      cases hs4 : stripFencesL l with
      | nil =>
        have hy : cleanCodeL l = [] := by
          show fixColonsL (findGraphStartL (stripFencesL l)) = []
          rw [hs5, hs4]
          decide
        rw [hy]
        decide
      | cons c t =>
        have hnl : noLeadWs (stripFencesL l) := noLeadWs_pyStripL _
        rw [hs4] at hnl
        replace hnl : pyWs c = false := hnl
        cases hq : splitLinesL (stripFencesL l) with
        | nil => exact absurd hq (splitLinesL_ne_nil _)
        | cons q0 qrest =>
          have hjq : stripFencesL l = joinLinesL (q0 :: qrest) := by
            rw [← hq, joinLinesL_splitLinesL]
          rw [hs4] at hjq
          have hq0 : c ∈ q0 := by
            cases qrest with
            | nil =>
              rw [joinLinesL_single] at hjq
              rw [← hjq]
              exact List.mem_cons_self c t
            | cons r1 rs =>
              rw [joinLinesL_cons₂] at hjq
              cases q0 with
              | nil =>
                exfalso
                simp only [List.nil_append] at hjq
                injection hjq with h1 _
                rw [h1] at hnl
                exact absurd hnl (by decide)
              | cons a q0t =>
                simp only [List.cons_append] at hjq
                injection hjq with h1 _
                rw [h1]
                exact List.mem_cons_self a q0t
          have hex : ∃ ch ∈ fixLineL q0, pyWs ch = false :=
            ex_nonws_fixLineL q0 ⟨c, hq0, hnl⟩
          have hlines : splitLinesL (cleanCodeL l)
              = fixLineL q0 :: qrest.map fixLineL := by
            rw [hlines0, hs5, hq, List.map_cons]
          have hnogy : ∀ l2 ∈ splitLinesL (cleanCodeL l), lineStartsGraph l2 = false := by
            intro l2 hl2
            rw [hlines] at hl2
            rcases List.mem_cons.mp hl2 with rfl | h2
            · rw [lineStartsGraph_fixLineL]
              exact hnone q0 (by rw [hq]; exact List.mem_cons_self _ _)
            · rcases List.mem_map.mp h2 with ⟨r, hr, rfl⟩
              rw [lineStartsGraph_fixLineL]
              exact hnone r (by rw [hq]; exact List.mem_cons_of_mem _ hr)
          exact clean_z_of_no_graph _ _ _ hlines hfixed hex hnogy

theorem data_mk (l : List Char) : (String.mk l).data = l := rfl

theorem cleanCode_data (s : String) : (cleanCode s).data = cleanCodeL s.data :=
  data_mk _

theorem pyStrip_data (s : String) : (pyStrip s).data = pyStripL s.data :=
  data_mk _

theorem sanitize_eq_some (x y : String) (h : sanitize x = some y) :
    validGraph (cleanCode x) = true ∧ cleanCode x = y := by
  rw [sanitize] at h
  by_cases hv : validGraph (cleanCode x) = true
  · rw [if_pos hv] at h
    exact ⟨hv, Option.some.inj h⟩
  · rw [if_neg hv] at h
    cases h

theorem validGraphL_pyStripL (l : List Char) (h : validGraphL l = true) :
    validGraphL (pyStripL l) = true := by
  rw [validGraphL, Bool.or_eq_true] at h ⊢
  rcases h with h | h
  · left
    rw [containsSubL_iff] at h ⊢
    exact infix_pyStripL_of _ _ (by decide) (by decide) h
  · right
    rw [containsSubL_iff] at h ⊢
    exact infix_pyStripL_of _ _ (by decide) (by decide) h

/-! ### C3: idempotence of the Sanitizer -/

/-- C3 (counterexample): "foo\n  graph TD" is accepted by the Sanitizer and
produces "  graph TD" (the kept line retains its indentation); sanitizing
that output again strips the leading whitespace, so
`sanitize (sanitize x) ≠ sanitize x`. -/
theorem c3_counterexample :
    sanitize "foo\n  graph TD" = some "  graph TD"
      ∧ sanitize "  graph TD" = some "graph TD"
      ∧ ("  graph TD" : String) ≠ "graph TD" := by decide

/-- C3 (amended): running the Sanitizer on its own accepted output succeeds
and returns that output with leading/trailing whitespace stripped; hence
sanitization is idempotent exactly up to the stripping of the leading
whitespace that step 3 can leave on a kept indented line (the output never
carries trailing whitespace). -/
theorem sanitize_sanitize (x y : String) (h : sanitize x = some y) :
    sanitize y = some (pyStrip y) := by
  obtain ⟨hv, hxy⟩ := sanitize_eq_some x y h
  subst hxy
  rw [validGraph, cleanCode_data] at hv
  have hclean : cleanCode (cleanCode x) = pyStrip (cleanCode x) := by
    show String.mk (cleanCodeL (cleanCode x).data)
      = String.mk (pyStripL (cleanCode x).data)
    rw [cleanCode_data, cleanCodeL_self]
  have hvalid2 : validGraph (pyStrip (cleanCode x)) = true := by
    rw [validGraph, pyStrip_data, cleanCode_data]
    exact validGraphL_pyStripL _ hv
  rw [sanitize, hclean, if_pos hvalid2]

/-- Witness for the amended C3 at a concrete accepted input. -/
theorem c3_amended_witness :
    sanitize "graph TD" = some (pyStrip "graph TD") :=
  sanitize_sanitize "graph TD" "graph TD" (by decide)

end Roadmap
